import Mathlib

/-!
Verification development for the medicine-packaging extraction pipeline
(`app.py`): a shallow embedding of the date parser, date-candidate miner,
shelf-life parser, date reconciler, value normalizer, vertical-text
normalizer, OCR orchestrator and field-extraction cascade, together with
theorems about the specified properties.

Text is modelled as `List Char` (ASCII fragment of Python `str`).
Python `datetime.date` values are modelled by `PyDate` with the same
lexicographic ordering.  `datetime.utcnow()` is embedded as the fixed
verification-time clock `utcnowYear`/`todayUTC`.
-/

namespace MedOCR

/-! ### Character classes and small string utilities -/

/-- Python whitespace (`\s` over the ASCII range): space, tab, newline,
carriage return, vertical tab, form feed. -/
def pyIsSpace (c : Char) : Bool :=
  c = ' ' || c = '\t' || c = '\n' || c = '\r' || c = '\x0b' || c = '\x0c'

/-- Regex word character `\w` over the ASCII range: letters, digits, underscore. -/
def wordChar (c : Char) : Bool :=
  c.isAlpha || c.isDigit || c = '_'

/-- ASCII lower-casing of one character (Python `str.lower`). -/
def lowerC (c : Char) : Char := c.toLower

/-- ASCII lower-casing of a string (Python `str.lower`). -/
def lowerS (cs : List Char) : List Char := cs.map lowerC

/-- Python `str.strip()`: drop leading and trailing whitespace. -/
def pyStrip (cs : List Char) : List Char :=
  ((cs.dropWhile pyIsSpace).reverse.dropWhile pyIsSpace).reverse

/-- Python `int(...)` on a string of decimal digits. -/
def digitsToNat (cs : List Char) : Nat :=
  cs.foldl (fun a c => a * 10 + (c.toNat - 48)) 0

/-- Split a run of leading decimal digits from a string. -/
def takeDigits (cs : List Char) : List Char × List Char :=
  (cs.takeWhile Char.isDigit, cs.dropWhile Char.isDigit)

/-! ### Dates

`PyDate` models `datetime.date`; Python compares dates lexicographically by
(year, month, day), which `dateLt`/`dateLe` mirror. -/

structure PyDate where
  year : Int
  month : Int
  day : Int
deriving DecidableEq, Repr

/-- Python `date` strict order: lexicographic on (year, month, day). -/
def dateLt (a b : PyDate) : Prop :=
  a.year < b.year ∨ (a.year = b.year ∧
    (a.month < b.month ∨ (a.month = b.month ∧ a.day < b.day)))

/-- Python `date` non-strict order: lexicographic on (year, month, day). -/
def dateLe (a b : PyDate) : Prop :=
  a.year < b.year ∨ (a.year = b.year ∧
    (a.month < b.month ∨ (a.month = b.month ∧ a.day ≤ b.day)))

instance (a b : PyDate) : Decidable (dateLt a b) := by
  unfold dateLt; infer_instance

instance (a b : PyDate) : Decidable (dateLe a b) := by
  unfold dateLe; infer_instance

theorem dateLt_trans {a b c : PyDate} (h1 : dateLt a b) (h2 : dateLt b c) :
    dateLt a c := by
  unfold dateLt at *; omega

theorem dateLe_of_lt {a b : PyDate} (h : dateLt a b) : dateLe a b := by
  unfold dateLt dateLe at *; omega

theorem dateLe_refl (a : PyDate) : dateLe a a := by
  unfold dateLe; omega

theorem dateLe_trans {a b c : PyDate} (h1 : dateLe a b) (h2 : dateLe b c) :
    dateLe a c := by
  unfold dateLe at *; omega

theorem dateLe_of_not_lt {a b : PyDate} (h : ¬ dateLt a b) : dateLe b a := by
  unfold dateLt at h; unfold dateLe; omega

theorem dateLt_le_trans {a b c : PyDate} (h1 : dateLt a b) (h2 : dateLe b c) :
    dateLt a c := by
  unfold dateLt dateLe at *; omega

theorem dateLe_lt_trans {a b c : PyDate} (h1 : dateLe a b) (h2 : dateLt b c) :
    dateLt a c := by
  unfold dateLt dateLe at *; omega

/-- The fixed verification-time clock: `datetime.utcnow().year`. -/
def utcnowYear : Int := 2026

/-- The fixed verification-time clock: `datetime.utcnow().date()`. -/
def todayUTC : PyDate := ⟨2026, 10, 12⟩

/-- `add_months` from `app.py`: month arithmetic with floor
division/modulo (Python `//`, `%`), day clamped to 28; the source's
`except` branch (`day := 1`) is unreachable because a clamped day never
exceeds 28, so `datetime(y, m, day)` cannot fail for a real input date. -/
def add_months (d : PyDate) (months : Int) : PyDate :=
  { year := d.year + (d.month - 1 + months).fdiv 12
    month := (d.month - 1 + months).fmod 12 + 1
    day := min d.day 28 }

/-- A date produced by the parser or accepted from the caller: month in
range and a positive bounded day, as every real `datetime.date` has. -/
def validDate (d : PyDate) : Prop :=
  1 ≤ d.month ∧ d.month ≤ 12 ∧ 1 ≤ d.day ∧ d.day ≤ 31

instance (d : PyDate) : Decidable (validDate d) := by
  unfold validDate; infer_instance

theorem add_months_month_bounds (d : PyDate) (k : Int) :
    1 ≤ (add_months d k).month ∧ (add_months d k).month ≤ 12 := by
  unfold add_months
  simp only
  rw [Int.fmod_eq_emod _ (by norm_num : (0:Int) ≤ 12)]
  omega

theorem add_months_key (d : PyDate) (k : Int) :
    (add_months d k).year * 12 + (add_months d k).month - 1 =
      d.year * 12 + d.month - 1 + k := by
  unfold add_months
  simp only
  rw [Int.fmod_eq_emod _ (by norm_num : (0:Int) ≤ 12),
    Int.fdiv_eq_ediv _ (by norm_num : (0:Int) ≤ 12)]
  omega

theorem dateLt_add_months (d : PyDate) (k : Int)
    (hm : 1 ≤ d.month ∧ d.month ≤ 12) (hk : 1 ≤ k) :
    dateLt d (add_months d k) := by
  have hkey := add_months_key d k
  have hb := add_months_month_bounds d k
  unfold dateLt
  omega

theorem add_months_dateLt (d : PyDate) (k : Int)
    (hm : 1 ≤ d.month ∧ d.month ≤ 12) (hk : k ≤ -1) :
    dateLt (add_months d k) d := by
  have hkey := add_months_key d k
  have hb := add_months_month_bounds d k
  unfold dateLt
  omega

/-! ### Python `min` / `max` over a nonempty list of dates -/

/-- Python `min(list)` on a nonempty list: keep the current value unless the
next element is strictly smaller (first minimum wins). -/
def pyMin : List PyDate → PyDate
  | [] => todayUTC
  | x :: xs => xs.foldl (fun a b => if dateLt b a then b else a) x

/-- Python `max(list)` on a nonempty list: keep the current value unless the
next element is strictly larger (first maximum wins). -/
def pyMax : List PyDate → PyDate
  | [] => todayUTC
  | x :: xs => xs.foldl (fun a b => if dateLt a b then b else a) x

theorem pyMin_foldl_mem (x : PyDate) (xs : List PyDate) :
    xs.foldl (fun a b => if dateLt b a then b else a) x = x ∨
      xs.foldl (fun a b => if dateLt b a then b else a) x ∈ xs := by
  induction xs generalizing x with
  | nil => simp
  | cons y ys ih =>
    simp only [List.foldl_cons]
    by_cases h : dateLt y x
    · simp only [if_pos h]
      rcases ih y with h1 | h1
      · right; rw [h1]; exact List.mem_cons_self _ _
      · right; exact List.mem_cons_of_mem _ h1
    · simp only [if_neg h]
      rcases ih x with h1 | h1
      · left; exact h1
      · right; exact List.mem_cons_of_mem _ h1

theorem pyMin_mem (l : List PyDate) (h : l ≠ []) : pyMin l ∈ l := by
  match l with
  | [] => exact absurd rfl h
  | x :: xs =>
    simp only [pyMin]
    rcases pyMin_foldl_mem x xs with h1 | h1
    · rw [h1]; exact List.mem_cons_self _ _
    · exact List.mem_cons_of_mem _ h1

theorem pyMax_foldl_mem (x : PyDate) (xs : List PyDate) :
    xs.foldl (fun a b => if dateLt a b then b else a) x = x ∨
      xs.foldl (fun a b => if dateLt a b then b else a) x ∈ xs := by
  induction xs generalizing x with
  | nil => simp
  | cons y ys ih =>
    simp only [List.foldl_cons]
    by_cases h : dateLt x y
    · simp only [if_pos h]
      rcases ih y with h1 | h1
      · right; rw [h1]; exact List.mem_cons_self _ _
      · right; exact List.mem_cons_of_mem _ h1
    · simp only [if_neg h]
      rcases ih x with h1 | h1
      · left; exact h1
      · right; exact List.mem_cons_of_mem _ h1

theorem pyMax_mem (l : List PyDate) (h : l ≠ []) : pyMax l ∈ l := by
  match l with
  | [] => exact absurd rfl h
  | x :: xs =>
    simp only [pyMax]
    rcases pyMax_foldl_mem x xs with h1 | h1
    · rw [h1]; exact List.mem_cons_self _ _
    · exact List.mem_cons_of_mem _ h1

theorem pyMin_foldl_le (x : PyDate) (xs : List PyDate) :
    dateLe (xs.foldl (fun a b => if dateLt b a then b else a) x) x ∧
      ∀ y ∈ xs, dateLe (xs.foldl (fun a b => if dateLt b a then b else a) x) y := by
  induction xs generalizing x with
  | nil => exact ⟨dateLe_refl x, by simp⟩
  | cons y ys ih =>
    simp only [List.foldl_cons]
    by_cases h : dateLt y x
    · simp only [if_pos h]
      refine ⟨dateLe_trans (ih y).1 (dateLe_of_lt h), ?_⟩
      intro z hz
      rcases List.mem_cons.1 hz with rfl | hz
      · exact (ih z).1
      · exact (ih y).2 z hz
    · simp only [if_neg h]
      refine ⟨(ih x).1, ?_⟩
      intro z hz
      rcases List.mem_cons.1 hz with rfl | hz
      · exact dateLe_trans (ih x).1 (dateLe_of_not_lt h)
      · exact (ih x).2 z hz

theorem pyMin_le (l : List PyDate) (y : PyDate) (hy : y ∈ l) :
    dateLe (pyMin l) y := by
  match l with
  | [] => cases hy
  | x :: xs =>
    simp only [pyMin]
    rcases List.mem_cons.1 hy with rfl | hy
    · exact (pyMin_foldl_le y xs).1
    · exact (pyMin_foldl_le x xs).2 y hy

theorem pyMax_foldl_ge (x : PyDate) (xs : List PyDate) :
    dateLe x (xs.foldl (fun a b => if dateLt a b then b else a) x) ∧
      ∀ y ∈ xs, dateLe y (xs.foldl (fun a b => if dateLt a b then b else a) x) := by
  induction xs generalizing x with
  | nil => exact ⟨dateLe_refl x, by simp⟩
  | cons y ys ih =>
    simp only [List.foldl_cons]
    by_cases h : dateLt x y
    · simp only [if_pos h]
      refine ⟨dateLe_trans (dateLe_of_lt h) (ih y).1, ?_⟩
      intro z hz
      rcases List.mem_cons.1 hz with rfl | hz
      · exact (ih z).1
      · exact (ih y).2 z hz
    · simp only [if_neg h]
      refine ⟨(ih x).1, ?_⟩
      intro z hz
      rcases List.mem_cons.1 hz with rfl | hz
      · exact dateLe_trans (dateLe_of_not_lt h) (ih x).1
      · exact (ih x).2 z hz

theorem pyMax_ge (l : List PyDate) (y : PyDate) (hy : y ∈ l) :
    dateLe y (pyMax l) := by
  match l with
  | [] => cases hy
  | x :: xs =>
    simp only [pyMax]
    rcases List.mem_cons.1 hy with rfl | hy
    · exact (pyMax_foldl_ge y xs).1
    · exact (pyMax_foldl_ge x xs).2 y hy

theorem pyMin_le_pyMax (l : List PyDate) (h : l ≠ []) :
    dateLe (pyMin l) (pyMax l) := by
  exact dateLe_trans (pyMin_le l (pyMax l) (pyMax_mem l h)) (dateLe_refl _)

/-! ### Flexible date parser (`parse_date_flexible`)

Each regex of the source is embedded as a specialized scanner over
`List Char` with exact leftmost-match, greedy and word-boundary (`\b`)
semantics.  `searchX prev cs` tries a match at every position from left to
right, tracking the previous character for boundary checks, exactly as
`re.search` does. -/

/-- Word-boundary test for the position before `cs` given the previous
character (`none` at the start of the string): the patterns below all start
with a word character, so `\b` holds iff the previous character is not a
word character. -/
def boundaryOk (prev : Option Char) : Bool :=
  match prev with
  | none => true
  | some p => !wordChar p

/-- Word-boundary test after a match ending just before `cs`: the patterns
below all end with a word character, so `\b` holds iff the next character is
absent or not a word character. -/
def afterBoundary (cs : List Char) : Bool :=
  match cs with
  | [] => true
  | c :: _ => !wordChar c

/-- Case-insensitive prefix test (pattern given in lower case). -/
def startsWithCI : List Char → List Char → Bool
  | [], _ => true
  | _ :: _, [] => false
  | p :: ps, c :: cs => lowerC c == p && startsWithCI ps cs

/-- The ordered month alternation of pattern 1,
`(Jan|Feb|Mar|Apr|May|Jun|Jul|Aug|Sep|Sept|Oct|Nov|Dec)`, paired with the
`month_map` value of the alternative's first three letters. -/
def monthAlts : List (List Char × Int) :=
  [("jan".data, 1), ("feb".data, 2), ("mar".data, 3), ("apr".data, 4),
   ("may".data, 5), ("jun".data, 6), ("jul".data, 7), ("aug".data, 8),
   ("sep".data, 9), ("sept".data, 9), ("oct".data, 10), ("nov".data, 11),
   ("dec".data, 12)]

def findMonthAltGo : List (List Char × Int) → List Char → Option (Int × Nat)
  | [], _ => none
  | (p, v) :: rest, cs =>
    if startsWithCI p cs then some (v, p.length) else findMonthAltGo rest cs

/-- First month alternative (in regex alternation order) matching at the
head of `cs`, with its length.  When `sep` matches, `se` has already
matched, and the trailing `[a-z]*` makes both alternatives equivalent. -/
def findMonthAlt (cs : List Char) : Option (Int × Nat) :=
  findMonthAltGo monthAlts cs

/-- The separator class of pattern 1: dot, hyphen, slash or whitespace. -/
def isP1Sep (c : Char) : Bool :=
  c = '.' || c = '-' || c = '/' || pyIsSpace c

/-- `fix_year` from `app.py`: fold a 2-digit year below 50 into the 2000s,
50 to 99 into the 1900s. -/
def fix_year (y : Int) : Int :=
  if y < 100 then (if y < 50 then 2000 + y else 1900 + y) else y

/-- `valid_year` from `app.py`, with `datetime.utcnow().year` embedded as
`utcnowYear`. -/
def valid_year (y : Int) : Bool :=
  1990 ≤ y && y ≤ utcnowYear + 20

/-- Try pattern 1 at one position:
`month name, letters, separators, 2 to 4 digits` (pattern 1 of the source).  The trailing `[a-z]*` and the
separator class are consumed greedily; shrinking either would leave a
letter or separator where a digit or separator is required, so no
backtracking into them can succeed.  `(\d{2,4})\b` succeeds iff the digit
run at that point has length 2 to 4 and is followed by a non-word
character, since any shorter greedy choice is followed by a digit. -/
def tryP1At (prev : Option Char) (cs : List Char) : Option (Int × List Char) :=
  if boundaryOk prev then
    match findMonthAlt cs with
    | none => none
    | some (mm, k) =>
      let r1 := (cs.drop k).dropWhile Char.isAlpha
      let r2 := r1.dropWhile isP1Sep
      let digits := r2.takeWhile Char.isDigit
      let rest := r2.dropWhile Char.isDigit
      if 2 ≤ digits.length && digits.length ≤ 4 && afterBoundary rest then
        some (mm, digits)
      else none
  else none

def searchP1 : Option Char → List Char → Option (Int × List Char)
  | _, [] => none
  | prev, c :: rest =>
    match tryP1At prev (c :: rest) with
    | some r => some r
    | none => searchP1 (some c) rest

/-- Pattern 1 step of `parse_date_flexible`: on a match, return the date
only if the (fixed) year is in range; otherwise fall through. -/
def pdfStep1 (s : List Char) : Option PyDate :=
  match searchP1 none s with
  | none => none
  | some (mm, digits) =>
    let yyyy := fix_year (digitsToNat digits : Int)
    if valid_year yyyy then some ⟨yyyy, mm, 1⟩ else none

/-- The separator class of pattern 2: dot, slash or hyphen. -/
def isP2Sep (c : Char) : Bool :=
  c = '.' || c = '/' || c = '-'

/-- Tail of pattern 2 after the separator: `(\d{2,4})\b` with the greedy
digit-run rule. -/
def p2Tail (g1 : List Char) (cs : List Char) : Option (List Char × List Char) :=
  let digits := cs.takeWhile Char.isDigit
  let rest := cs.dropWhile Char.isDigit
  if 2 ≤ digits.length && digits.length ≤ 4 && afterBoundary rest then
    some (g1, digits)
  else none

/-- Try pattern 2 at one position: 1 to 2 digits, a separator, 2 to 4 digits, word-bounded.
`(\d{1,2})` is greedy: two digits are taken when followed by a separator;
otherwise one digit followed by a separator; when two digits are followed
by a non-separator, the one-digit backtrack needs the second digit to be a
separator, which it is not, so the position fails. -/
def tryP2At (prev : Option Char) (cs : List Char) : Option (List Char × List Char) :=
  if boundaryOk prev then
    match cs with
    | a :: b :: c :: rest =>
      if a.isDigit then
        if b.isDigit then
          if isP2Sep c then p2Tail [a, b] rest else none
        else if isP2Sep b then p2Tail [a] (c :: rest)
        else none
      else none
    | _ => none
  else none

def searchP2 : Option Char → List Char → Option (List Char × List Char)
  | _, [] => none
  | prev, c :: rest =>
    match tryP2At prev (c :: rest) with
    | some r => some r
    | none => searchP2 (some c) rest

/-- Pattern 2 step of `parse_date_flexible`: month must be 1 to 12 and the
fixed year in range, checked on the first match only. -/
def pdfStep2 (s : List Char) : Option PyDate :=
  match searchP2 none s with
  | none => none
  | some (g1, g2) =>
    let mm : Int := (digitsToNat g1 : Int)
    let yyyy := fix_year (digitsToNat g2 : Int)
    if 1 ≤ mm && mm ≤ 12 && valid_year yyyy then some ⟨yyyy, mm, 1⟩ else none

/-- Try pattern 3 at one position: `\b(20\d{2})\b`. -/
def tryP3At (prev : Option Char) (cs : List Char) : Option (List Char) :=
  if boundaryOk prev then
    match cs with
    | a :: b :: c :: d :: rest =>
      if a = '2' && b = '0' && c.isDigit && d.isDigit && afterBoundary rest then
        some [a, b, c, d]
      else none
    | _ => none
  else none

def searchP3 : Option Char → List Char → Option (List Char)
  | _, [] => none
  | prev, c :: rest =>
    match tryP3At prev (c :: rest) with
    | some r => some r
    | none => searchP3 (some c) rest

/-- Pattern 3 step of `parse_date_flexible`: a bare `20xx` year, defaulting
to January. -/
def pdfStep3 (s : List Char) : Option PyDate :=
  match searchP3 none s with
  | none => none
  | some digits =>
    let yyyy : Int := (digitsToNat digits : Int)
    if valid_year yyyy then some ⟨yyyy, 1, 1⟩ else none

/-- Try pattern 4 at one position: `\b(\d{2})\b`. -/
def tryP4At (prev : Option Char) (cs : List Char) : Option (List Char) :=
  if boundaryOk prev then
    match cs with
    | a :: b :: rest =>
      if a.isDigit && b.isDigit && afterBoundary rest then some [a, b] else none
    | _ => none
  else none

def searchP4 : Option Char → List Char → Option (List Char)
  | _, [] => none
  | prev, c :: rest =>
    match tryP4At prev (c :: rest) with
    | some r => some r
    | none => searchP4 (some c) rest

/-- Pattern 4 step of `parse_date_flexible`: a bare 2-digit year, folded by
`fix_year` and defaulting to January. -/
def pdfStep4 (s : List Char) : Option PyDate :=
  match searchP4 none s with
  | none => none
  | some digits =>
    let yyyy := fix_year (digitsToNat digits : Int)
    if valid_year yyyy then some ⟨yyyy, 1, 1⟩ else none

theorem searchP2_cons_none (prev : Option Char) (c : Char) (rest : List Char)
    (h : tryP2At prev (c :: rest) = none) :
    searchP2 prev (c :: rest) = searchP2 (some c) rest := by
  rw [searchP2, h]

theorem searchP2_cons_some (prev : Option Char) (c : Char) (rest : List Char)
    (r : List Char × List Char) (h : tryP2At prev (c :: rest) = some r) :
    searchP2 prev (c :: rest) = some r := by
  rw [searchP2, h]

theorem searchP4_cons_none (prev : Option Char) (c : Char) (rest : List Char)
    (h : tryP4At prev (c :: rest) = none) :
    searchP4 prev (c :: rest) = searchP4 (some c) rest := by
  rw [searchP4, h]

theorem searchP4_cons_some (prev : Option Char) (c : Char) (rest : List Char)
    (r : List Char) (h : tryP4At prev (c :: rest) = some r) :
    searchP4 prev (c :: rest) = some r := by
  rw [searchP4, h]

theorem tryP2At_nondigit (prev : Option Char) (a : Char) (rest : List Char)
    (ha : a.isDigit = false) : tryP2At prev (a :: rest) = none := by
  unfold tryP2At
  rcases rest with _ | ⟨b, rest2⟩
  · split <;> rfl
  · rcases rest2 with _ | ⟨c, rest3⟩
    · split <;> rfl
    · split
      · simp [ha]
      · rfl

theorem tryP2At_wordPrev (p : Char) (cs : List Char)
    (hp : wordChar p = true) : tryP2At (some p) cs = none := by
  unfold tryP2At
  rw [if_neg]
  rw [boundaryOk, hp]
  exact Bool.false_ne_true

theorem tryP4At_nondigit (prev : Option Char) (a : Char) (rest : List Char)
    (ha : a.isDigit = false) : tryP4At prev (a :: rest) = none := by
  unfold tryP4At
  rcases rest with _ | ⟨b, rest2⟩
  · split <;> rfl
  · split
    · simp [ha]
    · rfl

theorem wordChar_of_digit {c : Char} (h : c.isDigit = true) :
    wordChar c = true := by
  rw [wordChar, h]
  simp

theorem p2Tail_y4 (g1 : List Char) (y1 y2 y3 y4 : Char)
    (h1 : y1.isDigit = true) (h2 : y2.isDigit = true)
    (h3 : y3.isDigit = true) (h4 : y4.isDigit = true) :
    p2Tail g1 [y1, y2, y3, y4] = some (g1, [y1, y2, y3, y4]) := by
  unfold p2Tail
  simp [List.takeWhile_cons, List.dropWhile_cons, h1, h2, h3, h4, afterBoundary]

theorem p2Tail_two_sep (g1 : List Char) (m1 m2 sep : Char) (rest : List Char)
    (h1 : m1.isDigit = true) (h2 : m2.isDigit = true)
    (hsd : sep.isDigit = false) (hsw : wordChar sep = false) :
    p2Tail g1 (m1 :: m2 :: sep :: rest) = some (g1, [m1, m2]) := by
  unfold p2Tail
  simp [List.takeWhile_cons, List.dropWhile_cons, h1, h2, hsd, afterBoundary, hsw]

theorem p2Tail_one_sep (g1 : List Char) (m sep : Char) (rest : List Char)
    (h1 : m.isDigit = true) (hsd : sep.isDigit = false) :
    p2Tail g1 (m :: sep :: rest) = none := by
  unfold p2Tail
  simp [List.takeWhile_cons, List.dropWhile_cons, h1, hsd]

theorem tryP2At_two_sep (prev : Option Char) (a b c : Char) (rest : List Char)
    (hprev : boundaryOk prev = true) (ha : a.isDigit = true)
    (hb : b.isDigit = true) (hc : isP2Sep c = true) :
    tryP2At prev (a :: b :: c :: rest) = p2Tail [a, b] rest := by
  unfold tryP2At
  rw [if_pos hprev]
  simp [ha, hb, hc]

theorem tryP2At_one_sep (prev : Option Char) (a b c : Char) (rest : List Char)
    (hprev : boundaryOk prev = true) (ha : a.isDigit = true)
    (hb : b.isDigit = false) (hbs : isP2Sep b = true) :
    tryP2At prev (a :: b :: c :: rest) = p2Tail [a] (c :: rest) := by
  unfold tryP2At
  rw [if_pos hprev]
  simp [ha, hb, hbs]

theorem tryP4At_two (prev : Option Char) (a b : Char) (rest : List Char)
    (hprev : boundaryOk prev = true) (ha : a.isDigit = true)
    (hb : b.isDigit = true) (hab : afterBoundary rest = true) :
    tryP4At prev (a :: b :: rest) = some [a, b] := by
  unfold tryP4At
  rw [if_pos hprev]
  simp [ha, hb, hab]

theorem searchP2_SL1 (prev : Option Char) (a m sep y1 y2 y3 y4 : Char)
    (hprev : boundaryOk prev = true) (ha : a.isDigit = true)
    (hm : m.isDigit = true) (hy1 : y1.isDigit = true) (hy2 : y2.isDigit = true)
    (hy3 : y3.isDigit = true) (hy4 : y4.isDigit = true)
    (hsd : sep.isDigit = false) (hsp : isP2Sep sep = true)
    (hsw : wordChar sep = false) :
    searchP2 prev [a, sep, m, sep, y1, y2, y3, y4] = some ([m], [y1, y2, y3, y4]) := by
  rw [searchP2_cons_none _ _ _ (by
    rw [tryP2At_one_sep _ _ _ _ _ hprev ha hsd hsp]
    exact p2Tail_one_sep _ _ _ _ hm hsd)]
  rw [searchP2_cons_none _ _ _ (tryP2At_nondigit _ _ _ hsd)]
  exact searchP2_cons_some _ _ _ _ (by
    rw [tryP2At_one_sep _ _ _ _ _ (by rw [boundaryOk, hsw]; rfl) hm hsd hsp]
    exact p2Tail_y4 _ _ _ _ _ hy1 hy2 hy3 hy4)

theorem searchP2_SL2 (prev : Option Char) (a m1 m2 sep y1 y2 y3 y4 : Char)
    (hprev : boundaryOk prev = true) (ha : a.isDigit = true)
    (hm1 : m1.isDigit = true) (hm2 : m2.isDigit = true)
    (hsd : sep.isDigit = false) (hsp : isP2Sep sep = true)
    (hsw : wordChar sep = false) :
    searchP2 prev [a, sep, m1, m2, sep, y1, y2, y3, y4] = some ([a], [m1, m2]) := by
  exact searchP2_cons_some _ _ _ _ (by
    rw [tryP2At_one_sep _ _ _ _ _ hprev ha hsd hsp]
    exact p2Tail_two_sep _ _ _ _ _ hm1 hm2 hsd hsw)

theorem searchP2_SL3 (prev : Option Char) (d1 d2 m sep y1 y2 y3 y4 : Char)
    (hprev : boundaryOk prev = true) (hd1 : d1.isDigit = true)
    (hd2 : d2.isDigit = true) (hm : m.isDigit = true)
    (hy1 : y1.isDigit = true) (hy2 : y2.isDigit = true)
    (hy3 : y3.isDigit = true) (hy4 : y4.isDigit = true)
    (hsd : sep.isDigit = false) (hsp : isP2Sep sep = true)
    (hsw : wordChar sep = false) :
    searchP2 prev [d1, d2, sep, m, sep, y1, y2, y3, y4] = some ([m], [y1, y2, y3, y4]) := by
  rw [searchP2_cons_none _ _ _ (by
    rw [tryP2At_two_sep _ _ _ _ _ hprev hd1 hd2 hsp]
    exact p2Tail_one_sep _ _ _ _ hm hsd)]
  rw [searchP2_cons_none _ _ _ (tryP2At_wordPrev _ _ (wordChar_of_digit hd1))]
  rw [searchP2_cons_none _ _ _ (tryP2At_nondigit _ _ _ hsd)]
  exact searchP2_cons_some _ _ _ _ (by
    rw [tryP2At_one_sep _ _ _ _ _ (by rw [boundaryOk, hsw]; rfl) hm hsd hsp]
    exact p2Tail_y4 _ _ _ _ _ hy1 hy2 hy3 hy4)

theorem searchP2_SL4 (prev : Option Char) (d1 d2 m1 m2 sep y1 y2 y3 y4 : Char)
    (hprev : boundaryOk prev = true) (hd1 : d1.isDigit = true)
    (hd2 : d2.isDigit = true) (hm1 : m1.isDigit = true)
    (hm2 : m2.isDigit = true)
    (hsd : sep.isDigit = false) (hsp : isP2Sep sep = true)
    (hsw : wordChar sep = false) :
    searchP2 prev [d1, d2, sep, m1, m2, sep, y1, y2, y3, y4] = some ([d1, d2], [m1, m2]) := by
  exact searchP2_cons_some _ _ _ _ (by
    rw [tryP2At_two_sep _ _ _ _ _ hprev hd1 hd2 hsp]
    exact p2Tail_two_sep _ _ _ _ _ hm1 hm2 hsd hsw)

theorem searchP4_SL5 (prev : Option Char) (d1 d2 sep : Char) (rest : List Char)
    (hprev : boundaryOk prev = true) (hd1 : d1.isDigit = true)
    (hd2 : d2.isDigit = true) (hsw : wordChar sep = false) :
    searchP4 prev (d1 :: d2 :: sep :: rest) = some [d1, d2] := by
  exact searchP4_cons_some _ _ _ _ (tryP4At_two _ _ _ _ hprev hd1 hd2
    (by rw [afterBoundary, hsw]; rfl))

/-! ### The strptime fallback of `parse_date_flexible` -/

/-- `re.sub(r'\.(\d)', r' \1', s)`: replace every dot standing immediately
before a digit by a space. -/
def subDotDigit : List Char → List Char
  | [] => []
  | '.' :: c :: rest =>
    if c.isDigit then ' ' :: c :: subDotDigit rest
    else '.' :: subDotDigit (c :: rest)
  | c :: rest => c :: subDotDigit rest

/-- Worker for `collapseWS`: `inRun` records whether the previous character
was whitespace (already emitted as one space). -/
def collapseWSGo : Bool → List Char → List Char
  | _, [] => []
  | inRun, c :: rest =>
    if pyIsSpace c then
      if inRun then collapseWSGo true rest
      else ' ' :: collapseWSGo true rest
    else c :: collapseWSGo false rest

/-- `re.sub(r'\s+', ' ', s)`: collapse every whitespace run to one space. -/
def collapseWS (cs : List Char) : List Char :=
  collapseWSGo false cs

/-- The normalization applied before the strptime fallback:
`re.sub(r'\.(\d)', r' \1', s)` then `re.sub(r'\s+', ' ', ...).strip()`. -/
def strptimeNormalize (s : List Char) : List Char :=
  pyStrip (collapseWS (subDotDigit s))

/-- Head is absent or not whitespace. -/
def headOK : List Char → Bool
  | [] => true
  | c :: _ => !pyIsSpace c

/-- Last character is absent or not whitespace. -/
def lastOK : List Char → Bool
  | [] => true
  | [c] => !pyIsSpace c
  | _ :: c :: rest => lastOK (c :: rest)

/-- No whitespace anywhere. -/
def noWS (cs : List Char) : Bool := cs.all (fun c => !pyIsSpace c)

/-- Head exists and is a digit. -/
def headDigit : List Char → Bool
  | [] => false
  | c :: _ => c.isDigit

/-- Some dot is immediately followed by a digit. -/
def hasDD : List Char → Bool
  | [] => false
  | c :: rest => (c = '.' && headDigit rest) || hasDD rest

theorem noWS_of_digit {c : Char} (h : c.isDigit = true) : pyIsSpace c = false := by
  cases hws : pyIsSpace c
  · rfl
  · simp only [pyIsSpace, Bool.or_eq_true, decide_eq_true_eq] at hws
    rcases hws with ((((rfl | rfl) | rfl) | rfl) | rfl) | rfl <;>
      exact absurd h (by decide)

theorem subDot_cons_ne (c : Char) (rest : List Char) (hc : c ≠ '.') :
    subDotDigit (c :: rest) = c :: subDotDigit rest := by
  rw [subDotDigit.eq_def]
  split
  · next heq => exact absurd heq (by simp)
  · next heq =>
    rw [List.cons.injEq] at heq
    exact absurd heq.1 hc
  · next c3 r3 _ heq =>
    rw [List.cons.injEq] at heq
    rw [heq.1, heq.2]

theorem subDot_dot_cons (c : Char) (rest : List Char) :
    subDotDigit ('.' :: c :: rest) =
      if c.isDigit then ' ' :: c :: subDotDigit rest
      else '.' :: subDotDigit (c :: rest) := rfl

theorem subDot_length (v : List Char) : (subDotDigit v).length = v.length := by
  induction v using subDotDigit.induct with
  | case1 => rfl
  | case2 c rest hd ih =>
    rw [subDot_dot_cons, if_pos hd]
    simp [ih]
  | case3 c rest hd ih =>
    rw [subDot_dot_cons, if_neg hd]
    simp [ih]
  | case4 c rest hcond ih =>
    by_cases hc : c = '.'
    · subst hc
      rcases rest with _ | ⟨r1, rr⟩
      · rfl
      · exact (hcond r1 rr rfl rfl).elim
    · rw [subDot_cons_ne c rest hc]
      simp [ih]

theorem lastOK_cons_ne_nil (c : Char) (X : List Char) (h : X ≠ []) :
    lastOK (c :: X) = lastOK X := by
  rcases X with _ | ⟨x, t⟩
  · exact absurd rfl h
  · rfl

theorem noWS_cons (c : Char) (t : List Char) :
    noWS (c :: t) = (!pyIsSpace c && noWS t) := by
  simp [noWS]

theorem subDot_id_of_noWS (v : List Char)
    (h : noWS (subDotDigit v) = true) : subDotDigit v = v := by
  induction v using subDotDigit.induct with
  | case1 => rfl
  | case2 c rest hd ih =>
    rw [subDot_dot_cons, if_pos hd] at h
    rw [noWS_cons] at h
    simp [pyIsSpace] at h
  | case3 c rest hd ih =>
    rw [subDot_dot_cons, if_neg hd] at h ⊢
    rw [noWS_cons] at h
    rw [ih (by exact (Bool.and_eq_true _ _ |>.mp h).2)]
  | case4 c rest hcond ih =>
    by_cases hc : c = '.'
    · subst hc
      rcases rest with _ | ⟨r1, rr⟩
      · rfl
      · exact (hcond r1 rr rfl rfl).elim
    · rw [subDot_cons_ne c rest hc] at h ⊢
      rw [noWS_cons] at h
      rw [ih (by exact (Bool.and_eq_true _ _ |>.mp h).2)]

theorem subDot_space_head (v : List Char) (t : List Char)
    (hh : headOK v = true) (heq : subDotDigit v = ' ' :: t)
    (hns : noWS t = true) : v = '.' :: t := by
  rcases v with _ | ⟨c, rest⟩
  · exact absurd heq (by simp [subDotDigit])
  · by_cases hc : c = '.'
    · subst hc
      rcases rest with _ | ⟨c2, r2⟩
      · exact absurd heq (by simp [subDotDigit])
      · rw [subDot_dot_cons] at heq
        split at heq
        · rw [List.cons.injEq] at heq
          obtain ⟨-, heq2⟩ := heq
          subst heq2
          rw [noWS_cons] at hns
          have h2 := (Bool.and_eq_true _ _ |>.mp hns).2
          rw [subDot_id_of_noWS r2 h2]
        · rw [List.cons.injEq] at heq
          exact absurd heq.1 (by decide)
    · rw [subDot_cons_ne c rest hc] at heq
      rw [List.cons.injEq] at heq
      obtain ⟨rfl, -⟩ := heq
      rw [headOK] at hh
      exact absurd hh (by decide)

theorem subDot_lastOK (v : List Char) (hl : lastOK v = true) :
    lastOK (subDotDigit v) = true := by
  induction v using subDotDigit.induct with
  | case1 => rfl
  | case2 c rest hd ih =>
    rw [subDot_dot_cons, if_pos hd]
    rcases rest with _ | ⟨r1, rr⟩
    · exact hl
    · have hne : subDotDigit (r1 :: rr) ≠ [] := by
        intro hnil
        have := subDot_length (r1 :: rr)
        rw [hnil] at this
        simp at this
      rw [lastOK_cons_ne_nil ' ' _ (by simp), lastOK_cons_ne_nil c _ hne]
      exact ih (hl)
  | case3 c rest hd ih =>
    rw [subDot_dot_cons, if_neg hd]
    have hne : subDotDigit (c :: rest) ≠ [] := by
      intro hnil
      have := subDot_length (c :: rest)
      rw [hnil] at this
      simp at this
    rw [lastOK_cons_ne_nil '.' _ hne]
    exact ih hl
  | case4 c rest hcond ih =>
    by_cases hc : c = '.'
    · subst hc
      rcases rest with _ | ⟨r1, rr⟩
      · exact hl
      · exact (hcond r1 rr rfl rfl).elim
    · rw [subDot_cons_ne c rest hc]
      rcases rest with _ | ⟨r1, rr⟩
      · exact hl
      · have hne : subDotDigit (r1 :: rr) ≠ [] := by
          intro hnil
          have := subDot_length (r1 :: rr)
          rw [hnil] at this
          simp at this
        rw [lastOK_cons_ne_nil c _ hne]
        exact ih hl

theorem subDot_head_cases (v : List Char) (hh : headOK v = true) :
    headOK (subDotDigit v) = true ∨
    ∃ u2, subDotDigit v = ' ' :: u2 ∧ headOK u2 = true ∧ u2 ≠ [] := by
  rcases v with _ | ⟨c, rest⟩
  · exact Or.inl rfl
  · by_cases hc : c = '.'
    · subst hc
      rcases rest with _ | ⟨c2, r2⟩
      · exact Or.inl (by decide)
      · rw [subDot_dot_cons]
        by_cases hd : c2.isDigit
        · rw [if_pos hd]
          refine Or.inr ⟨c2 :: subDotDigit r2, rfl, ?_, by simp⟩
          rw [headOK]
          rw [noWS_of_digit hd]
          rfl
        · rw [if_neg hd]
          exact Or.inl (by simp [headOK, pyIsSpace])
    · rw [subDot_cons_ne c rest hc]
      exact Or.inl hh

theorem collapse_cons_ws (b : Bool) (c : Char) (rest : List Char)
    (h : pyIsSpace c = true) :
    collapseWSGo b (c :: rest) =
      if b then collapseWSGo true rest else ' ' :: collapseWSGo true rest := by
  rw [collapseWSGo, if_pos h]

theorem collapse_cons_nws (b : Bool) (c : Char) (rest : List Char)
    (h : pyIsSpace c = false) :
    collapseWSGo b (c :: rest) = c :: collapseWSGo false rest := by
  rw [collapseWSGo, if_neg (by rw [h]; exact Bool.false_ne_true)]

theorem collapse_headOK (u : List Char) (b : Bool) (hh : headOK u = true) :
    headOK (collapseWSGo b u) = true := by
  rcases u with _ | ⟨c, rest⟩
  · rfl
  · rw [headOK, Bool.not_eq_true'] at hh
    rw [collapse_cons_nws b c rest hh]
    rw [headOK, hh]
    rfl

theorem collapse_b_irrel (u : List Char) (hh : headOK u = true) :
    collapseWSGo true u = collapseWSGo false u := by
  rcases u with _ | ⟨c, rest⟩
  · rfl
  · rw [headOK, Bool.not_eq_true'] at hh
    rw [collapse_cons_nws true c rest hh, collapse_cons_nws false c rest hh]

theorem collapse_lastOK (u : List Char) :
    ∀ b, u ≠ [] → lastOK u = true →
    collapseWSGo b u ≠ [] ∧ lastOK (collapseWSGo b u) = true := by
  induction u with
  | nil => intro b h _; exact absurd rfl h
  | cons c rest ih =>
    intro b _ hl
    by_cases hws : pyIsSpace c
    · have hrest : rest ≠ [] := by
        intro hnil
        subst hnil
        rw [lastOK, Bool.not_eq_true'] at hl
        rw [hl] at hws
        cases hws
      have hlr : lastOK rest = true := by
        rwa [lastOK_cons_ne_nil c rest hrest] at hl
      obtain ⟨hne, hlo⟩ := ih true hrest hlr
      rw [collapse_cons_ws b c rest hws]
      cases b
      · refine ⟨by simp, ?_⟩
        rw [if_neg (by simp), lastOK_cons_ne_nil ' ' _ hne]
        exact hlo
      · rw [if_pos rfl]
        exact ⟨hne, hlo⟩
    · rw [Bool.not_eq_true] at hws
      rw [collapse_cons_nws b c rest hws]
      refine ⟨by simp, ?_⟩
      rcases rest with _ | ⟨r1, rr⟩
      · rw [show collapseWSGo false [] = [] from rfl]
        rwa [lastOK]
      · have hlr : lastOK (r1 :: rr) = true := hl
        obtain ⟨hne, hlo⟩ := ih false (by simp) hlr
        rw [lastOK_cons_ne_nil c _ hne]
        exact hlo

theorem collapse_id_of_noWS (u : List Char) :
    ∀ b, headOK u = true → noWS (collapseWSGo b u) = true →
    collapseWSGo b u = u := by
  induction u with
  | nil => intro b _ _; rfl
  | cons c rest ih =>
    intro b hh hns
    rw [headOK, Bool.not_eq_true'] at hh
    rw [collapse_cons_nws b c rest hh] at hns ⊢
    rcases rest with _ | ⟨r1, rr⟩
    · rfl
    · by_cases hws : pyIsSpace r1
      · rw [collapse_cons_ws false r1 rr hws, if_neg (by simp)] at hns
        rw [noWS_cons, noWS_cons] at hns
        simp [pyIsSpace] at hns
      · rw [Bool.not_eq_true] at hws
        rw [noWS_cons] at hns
        have h2 := (Bool.and_eq_true _ _ |>.mp hns).2
        rw [ih false (by rw [headOK, hws]; rfl) h2]

theorem headOK_dropWhile (l : List Char) :
    headOK (l.dropWhile pyIsSpace) = true := by
  induction l with
  | nil => rfl
  | cons c rest ih =>
    rw [List.dropWhile_cons]
    by_cases hws : pyIsSpace c
    · rw [if_pos hws]
      exact ih
    · rw [Bool.not_eq_true] at hws
      rw [if_neg (by rw [hws]; exact Bool.false_ne_true)]
      rw [headOK, hws]
      rfl

theorem headOK_append (xs ys : List Char) (h : xs ≠ []) :
    headOK (xs ++ ys) = headOK xs := by
  rcases xs with _ | ⟨c, rest⟩
  · exact absurd rfl h
  · rfl

theorem headOK_reverse (w : List Char) : headOK w.reverse = lastOK w := by
  induction w with
  | nil => rfl
  | cons c rest ih =>
    rw [List.reverse_cons]
    rcases rest with _ | ⟨r1, rr⟩
    · rfl
    · rw [headOK_append _ _ (by simp), ih, lastOK_cons_ne_nil c _ (by simp)]

theorem lastOK_reverse (w : List Char) : lastOK w.reverse = headOK w := by
  have h := headOK_reverse w.reverse
  rw [List.reverse_reverse] at h
  exact h.symm

theorem dropWhile_lastOK (l : List Char) (hl : lastOK l = true) :
    lastOK (l.dropWhile pyIsSpace) = true := by
  induction l with
  | nil => rfl
  | cons c rest ih =>
    rw [List.dropWhile_cons]
    by_cases hws : pyIsSpace c
    · rw [if_pos hws]
      rcases rest with _ | ⟨r1, rr⟩
      · rfl
      · exact ih hl
    · rw [Bool.not_eq_true] at hws
      rw [if_neg (by rw [hws]; exact Bool.false_ne_true)]
      exact hl

theorem dropWhile_id_of_headOK (w : List Char) (hh : headOK w = true) :
    w.dropWhile pyIsSpace = w := by
  rcases w with _ | ⟨c, rest⟩
  · rfl
  · rw [headOK, Bool.not_eq_true'] at hh
    rw [List.dropWhile_cons, if_neg (by rw [hh]; exact Bool.false_ne_true)]

theorem pyStrip_id (w : List Char) (hh : headOK w = true)
    (hl : lastOK w = true) : pyStrip w = w := by
  unfold pyStrip
  rw [dropWhile_id_of_headOK w hh]
  rw [dropWhile_id_of_headOK _ (by rw [headOK_reverse]; exact hl)]
  exact List.reverse_reverse w

theorem pyStrip_headOK (s : List Char) : headOK (pyStrip s) = true := by
  unfold pyStrip
  rw [headOK_reverse]
  exact dropWhile_lastOK _ (by rw [lastOK_reverse]; exact headOK_dropWhile s)

theorem pyStrip_lastOK (s : List Char) : lastOK (pyStrip s) = true := by
  unfold pyStrip
  rw [lastOK_reverse]
  exact headOK_dropWhile _

theorem pyStrip_cons_space (X : List Char) :
    pyStrip (' ' :: X) = pyStrip X := by
  unfold pyStrip
  rw [List.dropWhile_cons, if_pos (by decide)]

/-- When the normalized string is whitespace-free, the input (with
non-whitespace ends) is the normalized string itself, or a dot followed by
it; the image under the dot substitution is pinned down as well. -/
theorem strptimeNormalize_state (v : List Char) (hh : headOK v = true)
    (hl : lastOK v = true) (hns : noWS (strptimeNormalize v) = true) :
    (v = strptimeNormalize v ∧ subDotDigit v = strptimeNormalize v) ∨
    (v = '.' :: strptimeNormalize v ∧
      subDotDigit v = ' ' :: strptimeNormalize v) := by
  have hlu : lastOK (subDotDigit v) = true := subDot_lastOK v hl
  rcases subDot_head_cases v hh with hhu | ⟨u2, hu2, hh2, hne2⟩
  · by_cases hunil : subDotDigit v = []
    · have hv : v = [] := by
        have := subDot_length v
        rw [hunil] at this
        exact List.length_eq_zero.mp this.symm
      subst hv
      exact Or.inl ⟨rfl, rfl⟩
    · obtain ⟨hcne, hcl⟩ := collapse_lastOK (subDotDigit v) false hunil hlu
      have hch : headOK (collapseWSGo false (subDotDigit v)) = true :=
        collapse_headOK _ false hhu
      have ht2 : strptimeNormalize v = collapseWSGo false (subDotDigit v) := by
        unfold strptimeNormalize collapseWS
        exact pyStrip_id _ hch hcl
      have h4 : collapseWSGo false (subDotDigit v) = subDotDigit v :=
        collapse_id_of_noWS _ false hhu (by rw [← ht2]; exact hns)
      have h5 : subDotDigit v = strptimeNormalize v := by rw [ht2, h4]
      refine Or.inl ⟨?_, h5⟩
      exact (subDot_id_of_noWS v (by rw [h5]; exact hns)).symm.trans h5
  · obtain ⟨hcne, hcl⟩ := collapse_lastOK u2 false hne2
      (by
        rw [hu2] at hlu
        rwa [lastOK_cons_ne_nil ' ' u2 hne2] at hlu)
    have hch : headOK (collapseWSGo false u2) = true :=
      collapse_headOK _ false hh2
    have ht2 : strptimeNormalize v = collapseWSGo false u2 := by
      unfold strptimeNormalize collapseWS
      rw [hu2, collapse_cons_ws false ' ' u2 (by decide), if_neg (by simp)]
      rw [collapse_b_irrel u2 hh2]
      rw [pyStrip_cons_space]
      exact pyStrip_id _ hch hcl
    have h4 : collapseWSGo false u2 = u2 :=
      collapse_id_of_noWS _ false hh2 (by rw [← ht2]; exact hns)
    have h5 : u2 = strptimeNormalize v := by rw [ht2, h4]
    refine Or.inr ⟨?_, by rw [hu2, h5]⟩
    exact subDot_space_head v _ hh (by rw [hu2, h5]) hns

theorem hasDD_append (xs : List Char) (c : Char) (ys : List Char)
    (hc : c.isDigit = true) : hasDD (xs ++ '.' :: c :: ys) = true := by
  induction xs with
  | nil => simp [hasDD, headDigit, hc]
  | cons x t ih => simp [hasDD, ih]

theorem subDot_headDigit (w : List Char)
    (h : headDigit (subDotDigit w) = true) : headDigit w = true := by
  rcases w with _ | ⟨c, rest⟩
  · exact h
  · by_cases hc : c = '.'
    · subst hc
      rcases rest with _ | ⟨c2, r2⟩
      · exact absurd h (by decide)
      · rw [subDot_dot_cons] at h
        split at h
        · simp [headDigit] at h
        · simp [headDigit] at h
    · rw [subDot_cons_ne c rest hc] at h
      exact h

theorem subDot_hasDD (v : List Char) : hasDD (subDotDigit v) = false := by
  induction v using subDotDigit.induct with
  | case1 => rfl
  | case2 c rest hd ih =>
    rw [subDot_dot_cons, if_pos hd]
    have hc : c ≠ '.' := by
      intro hcc
      rw [hcc] at hd
      exact absurd hd (by decide)
    simp [hasDD, headDigit, hc, ih]
  | case3 c rest hd ih =>
    rw [subDot_dot_cons, if_neg hd]
    have hhd : headDigit (subDotDigit (c :: rest)) = false := by
      cases hx : headDigit (subDotDigit (c :: rest))
      · rfl
      · exact absurd (subDot_headDigit _ hx) (by simpa [headDigit] using hd)
    simp [hasDD, hhd, ih]
  | case4 c rest hcond ih =>
    by_cases hc : c = '.'
    · subst hc
      rcases rest with _ | ⟨r1, rr⟩
      · decide
      · exact (hcond r1 rr rfl rfl).elim
    · rw [subDot_cons_ne c rest hc]
      simp [hasDD, hc, ih]

/-- `%m` of `datetime.strptime`: the ordered regex alternation
`1[0-2]|0[1-9]|[1-9]`. -/
def parsePercentM : List Char → Option (Int × List Char)
  | [] => none
  | c :: rest =>
    if c = '1' then
      match rest with
      | c2 :: rest2 =>
        if '0' ≤ c2 && c2 ≤ '2' then some (10 + ((c2.toNat - 48 : Nat) : Int), rest2)
        else some (1, rest)
      | [] => some (1, [])
    else if c = '0' then
      match rest with
      | c2 :: rest2 =>
        if '1' ≤ c2 && c2 ≤ '9' then some (((c2.toNat - 48 : Nat) : Int), rest2)
        else none
      | [] => none
    else if '2' ≤ c && c ≤ '9' then some (((c.toNat - 48 : Nat) : Int), rest)
    else none

/-- `%d` of `datetime.strptime`: the ordered regex alternation
`3[01]|[12]\d|0[1-9]|[1-9]`. -/
def parsePercentD : List Char → Option (Int × List Char)
  | [] => none
  | c :: rest =>
    if c = '3' then
      match rest with
      | c2 :: rest2 =>
        if c2 = '0' || c2 = '1' then some (30 + ((c2.toNat - 48 : Nat) : Int), rest2)
        else some (3, rest)
      | [] => some (3, [])
    else if c = '1' || c = '2' then
      match rest with
      | c2 :: rest2 =>
        if c2.isDigit then
          some (((c.toNat - 48 : Nat) : Int) * 10 + ((c2.toNat - 48 : Nat) : Int), rest2)
        else some (((c.toNat - 48 : Nat) : Int), rest)
      | [] => some (((c.toNat - 48 : Nat) : Int), [])
    else if c = '0' then
      match rest with
      | c2 :: rest2 =>
        if '1' ≤ c2 && c2 ≤ '9' then some (((c2.toNat - 48 : Nat) : Int), rest2)
        else none
      | [] => none
    else if '4' ≤ c && c ≤ '9' then some (((c.toNat - 48 : Nat) : Int), rest)
    else none

/-- `%y` of `datetime.strptime`: exactly two digits; Python folds the value
with pivot 68 (`y <= 68` maps to the 2000s, otherwise the 1900s). -/
def parsePercentY2 : List Char → Option (Int × List Char)
  | a :: b :: rest =>
    if a.isDigit && b.isDigit then
      let v : Int := (digitsToNat [a, b] : Int)
      some (if v ≤ 68 then 2000 + v else 1900 + v, rest)
    else none
  | _ => none

/-- `%Y` of `datetime.strptime`: exactly four digits. -/
def parsePercentY4 : List Char → Option (Int × List Char)
  | a :: b :: c :: d :: rest =>
    if a.isDigit && b.isDigit && c.isDigit && d.isDigit then
      some ((digitsToNat [a, b, c, d] : Int), rest)
    else none
  | _ => none

/-- `%b` month abbreviations (locale being English), matched
case-insensitively. -/
def strpAbbrevs : List (List Char × Int) :=
  [("jan".data, 1), ("feb".data, 2), ("mar".data, 3), ("apr".data, 4),
   ("may".data, 5), ("jun".data, 6), ("jul".data, 7), ("aug".data, 8),
   ("sep".data, 9), ("oct".data, 10), ("nov".data, 11), ("dec".data, 12)]

/-- `%B` full month names, sorted by decreasing length as Python's
`TimeRE` does (the order is irrelevant here as no name is a prefix of
another). -/
def strpFullNames : List (List Char × Int) :=
  [("september".data, 9), ("february".data, 2), ("november".data, 11),
   ("december".data, 12), ("january".data, 1), ("october".data, 10),
   ("august".data, 8), ("march".data, 3), ("april".data, 4),
   ("june".data, 6), ("july".data, 7), ("may".data, 5)]

def strpNameGo : List (List Char × Int) → List Char → Option (Int × List Char)
  | [], _ => none
  | (p, v) :: rest, cs =>
    if startsWithCI p cs then some (v, cs.drop p.length) else strpNameGo rest cs

/-- A whitespace character in a strptime format matches `\s+`. -/
def strpWS : List Char → Option (List Char)
  | c :: rest => if pyIsSpace c then some (rest.dropWhile pyIsSpace) else none
  | [] => none

/-- One token of a strptime format string. -/
inductive FmtTok where
  | lit (c : Char)
  | ws
  | pm
  | pd
  | py2
  | py4
  | pb
  | pbig
deriving DecidableEq, Repr

/-- The (year, month, day) accumulator of `_strptime`, with its defaults
1900, 1, 1. -/
structure StrpAcc where
  year : Int
  month : Int
  day : Int
deriving DecidableEq, Repr

def runFmtGo : List FmtTok → List Char → StrpAcc → Option StrpAcc
  | [], cs, acc => if cs.isEmpty then some acc else none
  | t :: ts, cs, acc =>
    match t with
    | .lit c =>
      match cs with
      | c2 :: rest => if c2 = c then runFmtGo ts rest acc else none
      | [] => none
    | .ws =>
      match strpWS cs with
      | some rest => runFmtGo ts rest acc
      | none => none
    | .pm =>
      match parsePercentM cs with
      | some (v, rest) => runFmtGo ts rest { acc with month := v }
      | none => none
    | .pd =>
      match parsePercentD cs with
      | some (v, rest) => runFmtGo ts rest { acc with day := v }
      | none => none
    | .py2 =>
      match parsePercentY2 cs with
      | some (v, rest) => runFmtGo ts rest { acc with year := v }
      | none => none
    | .py4 =>
      match parsePercentY4 cs with
      | some (v, rest) => runFmtGo ts rest { acc with year := v }
      | none => none
    | .pb =>
      match strpNameGo strpAbbrevs cs with
      | some (v, rest) => runFmtGo ts rest { acc with month := v }
      | none => none
    | .pbig =>
      match strpNameGo strpFullNames cs with
      | some (v, rest) => runFmtGo ts rest { acc with month := v }
      | none => none

/-- Gregorian month length, for `datetime` construction validity. -/
def daysInMonth (y m : Int) : Int :=
  if m = 2 then (if (y % 4 = 0 ∧ y % 100 ≠ 0) ∨ y % 400 = 0 then 29 else 28)
  else if m = 4 ∨ m = 6 ∨ m = 9 ∨ m = 11 then 30
  else 31

/-- `datetime(y, m, d)` succeeds exactly under these conditions. -/
def pyDateOK (y m d : Int) : Bool :=
  1 ≤ y && y ≤ 9999 && 1 ≤ m && m ≤ 12 && 1 ≤ d && d ≤ daysInMonth y m

/-- Epilogue of one strptime fallback iteration: the parse has validated
the `datetime` construction; a year below 100 is folded with `fix_year`
and the date re-validated (`dt.replace`; with the year unchanged the
construction was already validated). -/
def runFmtFinish (acc : StrpAcc) : Option PyDate :=
  if pyDateOK acc.year acc.month acc.day then
    if acc.year < 100 then
      if pyDateOK (fix_year acc.year) acc.month acc.day then
        some ⟨fix_year acc.year, acc.month, acc.day⟩
      else none
    else some ⟨acc.year, acc.month, acc.day⟩
  else none

/-- One iteration of the strptime fallback loop body: parse with one
format, then fold and validate the year.  The range check `valid_year` is
done by the loop. -/
def runFmtDate (fmt : List FmtTok) (cs : List Char) : Option PyDate :=
  match runFmtGo fmt cs ⟨1900, 1, 1⟩ with
  | none => none
  | some acc => runFmtFinish acc

/-- The `fmts` list of the source, tokenized. -/
def strpFmts : List (List FmtTok) :=
  [[.pm, .lit '/', .py4], [.pm, .lit '-', .py4], [.pm, .lit '.', .py4],
   [.pm, .lit '/', .py2], [.pm, .lit '-', .py2],
   [.pd, .lit '/', .pm, .lit '/', .py4], [.pd, .lit '-', .pm, .lit '-', .py4],
   [.pd, .lit '.', .pm, .lit '.', .py4],
   [.pb, .ws, .py4], [.pbig, .ws, .py4], [.pb, .ws, .py2], [.pbig, .ws, .py2],
   [.pb, .lit '.', .ws, .py4], [.pb, .lit '.', .ws, .py2], [.py4]]

def tryFmts : List (List FmtTok) → List Char → Option PyDate
  | [], _ => none
  | f :: fs, cs =>
    match runFmtDate f cs with
    | some d => if valid_year d.year then some d else tryFmts fs cs
    | none => tryFmts fs cs

/-- The strptime fallback of `parse_date_flexible`. -/
def pdfFallback (s : List Char) : Option PyDate :=
  tryFmts strpFmts (strptimeNormalize s)

/-- The placeholder strings rejected up front. -/
def pdfPlaceholders : List (List Char) :=
  ["n/a".data, "na".data, "information not available".data, "unknown".data,
   "".data]

/-- The pattern cascade of `parse_date_flexible` on the stripped input:
patterns 1 to 4, then the strptime format list. -/
def pdfChain (s1 : List Char) : Option PyDate :=
  match pdfStep1 s1 with
  | some d => some d
  | none =>
    match pdfStep2 s1 with
    | some d => some d
    | none =>
      match pdfStep3 s1 with
      | some d => some d
      | none =>
        match pdfStep4 s1 with
        | some d => some d
        | none => pdfFallback s1

/-- `parse_date_flexible` from `app.py`: strip, reject placeholders, then
try patterns 1 to 4 and finally the strptime format list. -/
def parse_date_flexible (s : List Char) : Option PyDate :=
  if s.isEmpty then none
  else
    let s1 := pyStrip s
    if pdfPlaceholders.contains (lowerS s1) then none
    else pdfChain s1

/-! ### Date-candidate mining (`find_date_candidates`)

`re.finditer` is embedded with explicit fuel (one unit per input position,
each match consumes at least one character): repeatedly take the leftmost
match and continue after its end. -/

/-- Try the candidate pattern `month name, letters, whitespace, exactly 4
digits, word-bounded` at one position, returning the matched text and the
remainder. -/
def tryF1At (prev : Option Char) (cs : List Char) : Option (List Char × List Char) :=
  if boundaryOk prev then
    match findMonthAlt cs with
    | none => none
    | some (_, k) =>
      let m := cs.take k
      let r1 := cs.drop k
      let letters := r1.takeWhile Char.isAlpha
      let r2 := r1.dropWhile Char.isAlpha
      let ws := r2.takeWhile pyIsSpace
      let r3 := r2.dropWhile pyIsSpace
      let digits := r3.takeWhile Char.isDigit
      let rest := r3.dropWhile Char.isDigit
      if !ws.isEmpty && digits.length = 4 && afterBoundary rest then
        some (m ++ letters ++ ws ++ digits, rest)
      else none
  else none

/-- Tail of the numeric candidate pattern after the separator, keeping
the matched text. -/
def f2Tail (g1 : List Char) (sep : Char) (cs : List Char) :
    Option (List Char × List Char) :=
  let digits := cs.takeWhile Char.isDigit
  let rest := cs.dropWhile Char.isDigit
  if 2 ≤ digits.length && digits.length ≤ 4 && afterBoundary rest then
    some (g1 ++ sep :: digits, rest)
  else none

/-- Try the candidate pattern `1 to 2 digits, separator, 2 to 4 digits,
word-bounded` at one position (same greedy rules as pattern 2 of the
parser). -/
def tryF2At (prev : Option Char) (cs : List Char) : Option (List Char × List Char) :=
  if boundaryOk prev then
    match cs with
    | a :: b :: c :: rest =>
      if a.isDigit then
        if b.isDigit then
          if isP2Sep c then f2Tail [a, b] c rest else none
        else if isP2Sep b then f2Tail [a] b (c :: rest)
        else none
      else none
    | _ => none
  else none

/-- Try the candidate pattern `19 or 20 followed by two digits,
word-bounded` at one position. -/
def tryF3At (prev : Option Char) (cs : List Char) : Option (List Char × List Char) :=
  if boundaryOk prev then
    match cs with
    | a :: b :: c :: d :: rest =>
      if ((a = '1' && b = '9') || (a = '2' && b = '0')) && c.isDigit && d.isDigit
          && afterBoundary rest then
        some ([a, b, c, d], rest)
      else none
    | _ => none
  else none

def finditerGo (tryAt : Option Char → List Char → Option (List Char × List Char)) :
    Nat → Option Char → List Char → List (List Char)
  | 0, _, _ => []
  | fuel + 1, prev, cs =>
    match tryAt prev cs with
    | some (raw, rest) => raw :: finditerGo tryAt fuel raw.getLast? rest
    | none =>
      match cs with
      | [] => []
      | c :: rest => finditerGo tryAt fuel (some c) rest

/-- `re.finditer`: all non-overlapping leftmost matches in order. -/
def finditer (tryAt : Option Char → List Char → Option (List Char × List Char))
    (cs : List Char) : List (List Char) :=
  finditerGo tryAt (cs.length + 1) none cs

/-- The raw-string dedup-and-parse loop of `find_date_candidates` (the
`seen` set and the candidate list). -/
def fdcLoop : List (List Char) → List (List Char) → List PyDate
  | [], _ => []
  | r :: rest, seen =>
    if seen.contains r then fdcLoop rest seen
    else
      match parse_date_flexible r with
      | some d => d :: fdcLoop rest (r :: seen)
      | none => fdcLoop rest (r :: seen)

/-- Sorted insertion keeping the list strictly increasing (no duplicate). -/
def insDate (d : PyDate) : List PyDate → List PyDate
  | [] => [d]
  | e :: rest =>
    if dateLt d e then d :: e :: rest
    else if d = e then e :: rest
    else e :: insDate d rest

/-- `sorted(set(l))`: the strictly increasing enumeration of the values. -/
def dedupSortDates (l : List PyDate) : List PyDate :=
  l.foldr insDate []

/-- `find_date_candidates` from `app.py`: mine all date-shaped substrings
with the three candidate patterns, dedup the raw strings, parse each with
`parse_date_flexible`, and return `sorted(set(...))`. -/
def find_date_candidates (text : List Char) : List PyDate :=
  if text.isEmpty then []
  else
    let raws := finditer tryF1At text ++ finditer tryF2At text ++
      finditer tryF3At text
    dedupSortDates (fdcLoop raws [])

/-! ### Shelf life (`shelf_life_months`) -/

/-- Case-insensitive literal word, returning the remainder. -/
def matchCIWord (w : List Char) (cs : List Char) : Option (List Char) :=
  if startsWithCI w cs then some (cs.drop w.length) else none

/-- A two-word phrase with optional whitespace between the words. -/
def matchPhrase (w1 w2 : List Char) (cs : List Char) : Option (List Char) :=
  match matchCIWord w1 cs with
  | some r1 => matchCIWord w2 (r1.dropWhile pyIsSpace)
  | none => none

/-- After a shelf-life phrase: optional whitespace, 1 to 2 digits, optional
whitespace, `month` with an optional case-insensitive `s`, word boundary.
A digit run of length 3 or more fails: the greedy 2-digit choice is then
followed by a digit where `m` is required, and so is the 1-digit
backtrack. -/
def s1Tail (cs : List Char) : Option (List Char) :=
  let r1 := cs.dropWhile pyIsSpace
  let digits := r1.takeWhile Char.isDigit
  let r2 := r1.dropWhile Char.isDigit
  if digits.length = 1 || digits.length = 2 then
    let r3 := r2.dropWhile pyIsSpace
    match matchCIWord "month".data r3 with
    | some r4 =>
      match r4 with
      | c :: r5 =>
        if lowerC c = 's' then (if afterBoundary r5 then some digits else none)
        else (if afterBoundary r4 then some digits else none)
      | [] => some digits
    | none => none
  else none

/-- Try the first shelf-life pattern at one position: a word-bounded
`best before`, `use before` or `shelf life` phrase (ordered alternation,
mutually exclusive by first letter), then `s1Tail`. -/
def tryS1At (prev : Option Char) (cs : List Char) : Option (List Char) :=
  if boundaryOk prev then
    match matchPhrase "best".data "before".data cs with
    | some r => s1Tail r
    | none =>
      match matchPhrase "use".data "before".data cs with
      | some r => s1Tail r
      | none =>
        match matchPhrase "shelf".data "life".data cs with
        | some r => s1Tail r
        | none => none
  else none

def searchS1 : Option Char → List Char → Option (List Char)
  | _, [] => none
  | prev, c :: rest =>
    match tryS1At prev (c :: rest) with
    | some r => some r
    | none => searchS1 (some c) rest

/-- The manufacturer-word alternation `mfg`, `manufacture`,
`manufacturing` followed by a word boundary; at most one alternative can
prefix-match at a given position. -/
def s2Mfg (digits : List Char) (cs : List Char) : Option (List Char) :=
  let r := cs.dropWhile pyIsSpace
  if startsWithCI "mfg".data r then
    (if afterBoundary (r.drop 3) then some digits else none)
  else if startsWithCI "manufacture".data r then
    (if afterBoundary (r.drop 11) then some digits else none)
  else if startsWithCI "manufacturing".data r then
    (if afterBoundary (r.drop 13) then some digits else none)
  else none

/-- `from` or `after` (ordered alternation, mutually exclusive). -/
def s2After (digits : List Char) (cs : List Char) : Option (List Char) :=
  let r := cs.dropWhile pyIsSpace
  match matchCIWord "from".data r with
  | some r2 => s2Mfg digits r2
  | none =>
    match matchCIWord "after".data r with
    | some r2 => s2Mfg digits r2
    | none => none

/-- Try the second shelf-life pattern at one position: word-bounded 1 to 2
digits, optional whitespace, `month` with optional `s`, `from` or `after`,
then a manufacturer word.  When the optional `s` is present but the
continuation fails, the `s`-less backtrack meets the letter `s` where
`from` or `after` is required and fails as well. -/
def tryS2At (prev : Option Char) (cs : List Char) : Option (List Char) :=
  if boundaryOk prev then
    let digits := cs.takeWhile Char.isDigit
    let r1 := cs.dropWhile Char.isDigit
    if digits.length = 1 || digits.length = 2 then
      let r2 := r1.dropWhile pyIsSpace
      match matchCIWord "month".data r2 with
      | some r3 =>
        match r3 with
        | c :: r4 => if lowerC c = 's' then s2After digits r4 else s2After digits r3
        | [] => none
      | none => none
    else none
  else none

def searchS2 : Option Char → List Char → Option (List Char)
  | _, [] => none
  | prev, c :: rest =>
    match tryS2At prev (c :: rest) with
    | some r => some r
    | none => searchS2 (some c) rest

/-- `shelf_life_months` from `app.py`: try the `best before, use before,
shelf life` pattern, then the `N months from mfg` pattern; `int(...)` on
the captured digits cannot fail. -/
def shelf_life_months (text : List Char) : Option Int :=
  if text.isEmpty then none
  else
    match searchS1 none text with
    | some digits => some ((digitsToNat digits : Nat) : Int)
    | none =>
      match searchS2 none text with
      | some digits => some ((digitsToNat digits : Nat) : Int)
      | none => none

/-! ### The date reconciler (`reconcile_dates_from_text`) -/

/-- Python truthiness of the optional shelf-life integer (`if life:`); a
parsed value of 0 is falsy. -/
def optIntTruthy : Option Int → Bool
  | none => false
  | some n => n != 0

/-- `reconcile_dates_from_text` from `app.py`, with `datetime.utcnow()`
embedded as `todayUTC`. -/
def reconcile_dates_from_text (full_text : List Char)
    (mfd_dt exp_dt : Option PyDate) : PyDate × PyDate :=
  let candidates := find_date_candidates full_text
  let life := shelf_life_months full_text
  let now := todayUTC
  match mfd_dt, exp_dt with
  | some m, some e =>
    if dateLt e m then
      if 2 ≤ candidates.length then (pyMin candidates, pyMax candidates)
      else (e, m)
    else (m, e)
  | some m, none =>
    if optIntTruthy life then (m, add_months m (life.getD 0))
    else
      let later := candidates.filter fun d => decide (dateLt m d)
      match later with
      | [] => (m, add_months m 24)
      | _ :: _ => (m, pyMin later)
  | none, some e =>
    let earlier := candidates.filter fun d => decide (dateLt d e)
    match earlier with
    | [] =>
      if optIntTruthy life then (add_months e (-(life.getD 0)), e)
      else (add_months e (-24), e)
    | _ :: _ => (pyMax earlier, e)
  | none, none =>
    if 2 ≤ candidates.length then (pyMin candidates, pyMax candidates)
    else
      match candidates with
      | [d] => (d, add_months d 24)
      | _ => (now, add_months now 12)

/-! ### Value normalizer (`clean_extracted_value`) -/

inductive FieldType where
  | text
  | brand
  | batch
  | mrp
  | date
deriving DecidableEq, Repr

/-- The noise class stripped at both ends: colon, hyphen, dot, whitespace. -/
def isCleanPunct (c : Char) : Bool :=
  c = ':' || c = '-' || c = '.' || pyIsSpace c

def dropLeadPunct (cs : List Char) : List Char :=
  cs.dropWhile isCleanPunct

def dropTrailPunct (cs : List Char) : List Char :=
  (cs.reverse.dropWhile isCleanPunct).reverse

/-- Python `str.split()`: whitespace-separated tokens, worker carrying the
current token reversed. -/
def splitWSGo : List Char → List Char → List (List Char)
  | cur, [] => if cur.isEmpty then [] else [cur.reverse]
  | cur, c :: rest =>
    if pyIsSpace c then
      if cur.isEmpty then splitWSGo [] rest
      else cur.reverse :: splitWSGo [] rest
    else splitWSGo (c :: cur) rest

/-- Python `str.split()`. -/
def splitWS (cs : List Char) : List (List Char) :=
  splitWSGo [] cs

/-- The `invalid_starts` deny-list of `clean_extracted_value`. -/
def invalidStarts : List (List Char) :=
  ["each".data, "film".data, "coated".data, "tablet".data, "capsule".data,
   "contains".data, "information".data, "store".data, "keep".data,
   "protect".data, "the".data, "this".data, "for".data, "use".data]

/-- The suffix alternatives of the trailing-generic-term pattern:
`tablet` or `capsule` with optional `s`, and `I P` or `B P` with optional
dots, matched case-insensitively and end-anchored. -/
def brandSuffixForms : List (List Char) :=
  ["tablet".data, "tablets".data, "capsule".data, "capsules".data,
   "ip".data, "i.p".data, "ip.".data, "i.p.".data,
   "bp".data, "b.p".data, "bp.".data, "b.p.".data]

/-- Whether the whole suffix `cs` matches optional whitespace followed by a
suffix alternative up to the end of the string. -/
def brandSuffixCheck (cs : List Char) : Bool :=
  brandSuffixForms.contains (lowerS (cs.dropWhile pyIsSpace))

/-- The trailing-generic-term substitution: cut at the leftmost position
whose whole suffix matches the end-anchored pattern. -/
def stripBrandSuffix : List Char → List Char
  | [] => []
  | c :: rest =>
    if brandSuffixCheck (c :: rest) then [] else c :: stripBrandSuffix rest

/-- One number as captured by the first-decimal pattern of the `mrp`
branch: a digit run, optionally a dot or comma followed by one or two more
digits. -/
def mrpNum (cs : List Char) : List Char :=
  let ip := cs.takeWhile Char.isDigit
  let r1 := cs.dropWhile Char.isDigit
  match r1 with
  | s :: r2 =>
    if s = '.' || s = ',' then
      let fr := r2.takeWhile Char.isDigit
      if fr.isEmpty then ip else ip ++ s :: fr.take 2
    else ip
  | [] => ip

/-- Leftmost match of the first-decimal pattern. -/
def mrpFirst : List Char → Option (List Char)
  | [] => none
  | c :: rest => if c.isDigit then some (mrpNum (c :: rest)) else mrpFirst rest

def infoNotAvailable : List Char := "Information not available".data

/-- `clean_extracted_value` from `app.py`.  The `brand` branch embeds the
source line

`if value.lower().split()[0] if value.split() else '' in invalid_starts:`

with Python's precedence: the `in` test binds tighter than the
conditional, so when the value has any token the condition is the
truthiness of the first token of the lower-cased split. -/
def clean_extracted_value (value : Option (List Char)) (ft : FieldType) :
    Option (List Char) :=
  match value with
  | none => none
  | some v0 =>
    if v0.isEmpty || v0 = infoNotAvailable then none
    else
      let v1 := pyStrip v0
      let v2 := dropTrailPunct (dropLeadPunct v1)
      match ft with
      | .brand =>
        let cond : Bool :=
          match splitWS v2 with
          | [] => invalidStarts.contains []
          | _ :: _ => !((splitWS (lowerS v2)).headD []).isEmpty
        if cond then none
        else
          let v3 := stripBrandSuffix v2
          if v3.isEmpty then none else some v3
      | .batch =>
        if !(v2.any fun c => c.isAlpha || c.isDigit) then none
        else
          let v3 := dropLeadPunct v2
          if v3.isEmpty then none else some v3
      | .mrp =>
        match mrpFirst v2 with
        | some num =>
          let v3 := num.map fun c => if c = ',' then '.' else c
          if v3.isEmpty then none else some v3
        | none => none
      | _ =>
        if v2.isEmpty then none else some v2

/-! ### Brand validity filter of the upload route (`is_valid_brand`) -/

/-- The anchored deny patterns of `is_valid_brand`; the flag records
whether the pattern requires a whitespace character after the word. -/
def invalidBrandPrefixes : List (List Char × Bool) :=
  [("each".data, true), ("film".data, true), ("coated".data, false),
   ("tablet".data, false), ("capsule".data, false), ("contains".data, false),
   ("information".data, false), ("store".data, false), ("keep".data, false),
   ("protect".data, false), ("the".data, true), ("this".data, true),
   ("for".data, true), ("use".data, true)]

def matchesBrandDeny (st : List Char) (p : List Char) (needsWS : Bool) : Bool :=
  startsWithCI p st &&
    (!needsWS ||
      (match st.drop p.length with
       | c :: _ => pyIsSpace c
       | [] => false))

/-- `is_valid_brand` from the upload route: a falsy or blank value is
invalid, as is any value matching one of the anchored deny patterns. -/
def is_valid_brand (v : Option (List Char)) : Bool :=
  match v with
  | none => false
  | some s =>
    let st := pyStrip s
    if st.isEmpty then false
    else !(invalidBrandPrefixes.any fun pr => matchesBrandDeny st pr.1 pr.2)

/-! ### Vertical-text normalization (`normalize_vertical`) -/

/-- Python `str.isalnum` on a single character (ASCII fragment). -/
def pyIsAlnum (c : Char) : Bool :=
  c.isAlpha || c.isDigit

/-- A stripped line consisting of exactly one alphanumeric character. -/
def isSingleAlnum : List Char → Bool
  | [c] => pyIsAlnum c
  | _ => false

/-- The while-loop of `normalize_vertical` with the current
single-character run made explicit: `acc` is the concatenation built so
far when inside a run. -/
def nvGo : Option (List Char) → List (List Char) → List (List Char)
  | some r, [] => [r]
  | none, [] => []
  | some r, l :: rest =>
    let s := pyStrip l
    if isSingleAlnum s then nvGo (some (r ++ s)) rest
    else r :: s :: nvGo none rest
  | none, l :: rest =>
    let s := pyStrip l
    if isSingleAlnum s then nvGo (some s) rest
    else s :: nvGo none rest

/-- `text.splitlines()` for newline-separated text, worker. -/
def splitNLGo : List Char → List (List Char)
  | [] => [[]]
  | c :: rest =>
    match splitNLGo rest with
    | r :: rs => if c = '\n' then [] :: r :: rs else (c :: r) :: rs
    | [] => [[]]

/-- Python `str.splitlines()` restricted to `\n` terminators: split on
newlines, with a trailing newline not producing a final empty line. -/
def splitlinesPy (text : List Char) : List (List Char) :=
  let r := splitNLGo text
  match r.getLast? with
  | some [] => r.dropLast
  | _ => r

/-- `normalize_vertical` from `app.py`. -/
def normalize_vertical (text : List Char) : List Char :=
  List.intercalate ['\n'] (nvGo none (splitlinesPy text))

/-! ### OCR orchestrator (`ocr_extract_text`)

The three backends and the final retry are modelled as oracle inputs: a
backend call that raises or returns nothing is a `none`/empty result (each
adapter catches its own exceptions, and the cloud-OCR call is wrapped in
the orchestrator itself).  The returned list logs which backends were
invoked, in order. -/

inductive Backend where
  | tesseract
  | gemini
  | vision
  | geminiRetry
deriving DecidableEq, Repr

/-- Python truthiness of an optional string (`if text:`). -/
def pyTruthyStr : Option (List Char) → Bool
  | none => false
  | some s => !s.isEmpty

/-- Step 4 of the orchestrator: the final Gemini retry, attempted only
when Gemini is available with a key. -/
def ocrStep4 (gemOk : Bool) (gem2 : Option (List Char)) (log : List Backend) :
    Option (List Char) × List Backend :=
  if gemOk then
    if pyTruthyStr gem2 then (gem2, log ++ [.geminiRetry])
    else (none, log ++ [.geminiRetry])
  else (none, log)

/-- Step 3 of the orchestrator: the cloud-OCR attempt, always made; an
exception or empty annotation list falls through to step 4. -/
def ocrStep3 (gemOk : Bool) (visionRes gem2 : Option (List Char))
    (log : List Backend) : Option (List Char) × List Backend :=
  if pyTruthyStr visionRes then (visionRes, log ++ [.vision])
  else ocrStep4 gemOk gem2 (log ++ [.vision])

/-- Step 2 of the orchestrator: the Gemini attempt, made only when Gemini
is available with a key. -/
def ocrStep2 (gemOk : Bool) (gem1 visionRes gem2 : Option (List Char))
    (log : List Backend) : Option (List Char) × List Backend :=
  if gemOk then
    if pyTruthyStr gem1 then (gem1, log ++ [.gemini])
    else ocrStep3 gemOk visionRes gem2 (log ++ [.gemini])
  else ocrStep3 gemOk visionRes gem2 log

/-- `ocr_extract_text` from `app.py` over backend oracles: Tesseract when
available, then Gemini when configured, then cloud OCR, then one final
Gemini retry; the first truthy text wins and `none` is returned only after
all steps are exhausted. -/
def ocr_extract_text (tessAvail gemOk : Bool)
    (tessRes gem1 visionRes gem2 : Option (List Char)) :
    Option (List Char) × List Backend :=
  if tessAvail then
    if pyTruthyStr tessRes then (tessRes, [.tesseract])
    else ocrStep2 gemOk gem1 visionRes gem2 [.tesseract]
  else ocrStep2 gemOk gem1 visionRes gem2 []

/-! ### Field-extraction cascade of the upload route

The three extraction passes of the `index` route (model on the image,
regex over the OCR text, model over the OCR text) with the collaborator
calls as oracles: `gd` is the cleaned-input dictionary of the direct-image
model call, `rx text key` the value `find_first_match` returns for a
field's pattern list, and `gt text` the dictionary of the model-over-text
call. -/

structure GemFields where
  brand : Option (List Char)
  dosage : Option (List Char)
  batch : Option (List Char)
  mfd : Option (List Char)
  exp : Option (List Char)
  manufacturer : Option (List Char)
  mrp : Option (List Char)
deriving DecidableEq, Repr

structure RecFields where
  brand : Option (List Char)
  dosage : Option (List Char)
  batch : Option (List Char)
  mfd : Option (List Char)
  exp : Option (List Char)
  manufacturer : Option (List Char)
  mrp : Option (List Char)
deriving DecidableEq, Repr

def emptyFields : RecFields :=
  ⟨none, none, none, none, none, none, none⟩

inductive FieldKey where
  | brand
  | dosage
  | batch
  | mfd
  | exp
  | manufacturer
  | mrp
deriving DecidableEq, Repr

/-- `find_first_match` from `app.py` over an oracle of per-pattern
outcomes (the captured first group of the first matching pattern, or
nothing): the first capturing match wins, stripped; with no match the
placeholder string is returned. -/
def find_first_match : List (Option (List Char)) → List Char
  | [] => infoNotAvailable
  | r :: rest =>
    match r with
    | some g => pyStrip g
    | none => find_first_match rest

/-- METHOD 1 of the upload route: Gemini direct image extraction; each
field is cleaned, and brand is kept only when truthy and valid. -/
def cascadePass1 (gd : Option GemFields) : RecFields :=
  match gd with
  | none => emptyFields
  | some d =>
    let eb := clean_extracted_value d.brand .brand
    { brand := if pyTruthyStr eb && is_valid_brand eb then eb else none
      dosage := clean_extracted_value d.dosage .text
      batch := clean_extracted_value d.batch .batch
      mfd := clean_extracted_value d.mfd .date
      exp := clean_extracted_value d.exp .date
      manufacturer := clean_extracted_value d.manufacturer .text
      mrp := clean_extracted_value d.mrp .mrp }

/-- METHOD 2 of the upload route: regex extraction over the normalized OCR
text, run per field only when the field is still falsy; the brand result is
reset to `None` when invalid. -/
def cascadePass2 (rx : List Char → FieldKey → List Char) (t : List Char)
    (f : RecFields) : RecFields :=
  { brand :=
      if !pyTruthyStr f.brand then
        let b := some (rx t .brand)
        if !is_valid_brand b then none else b
      else f.brand
    dosage := if !pyTruthyStr f.dosage then some (rx t .dosage) else f.dosage
    batch := if !pyTruthyStr f.batch then some (rx t .batch) else f.batch
    mfd := if !pyTruthyStr f.mfd then some (rx t .mfd) else f.mfd
    exp := if !pyTruthyStr f.exp then some (rx t .exp) else f.exp
    manufacturer :=
      if !pyTruthyStr f.manufacturer then some (rx t .manufacturer)
      else f.manufacturer
    mrp := if !pyTruthyStr f.mrp then some (rx t .mrp) else f.mrp }

/-- METHOD 3 of the upload route: Gemini extraction over the OCR text,
attempted only when brand, batch, manufacture date or expiry date is still
falsy; each field is taken only when still falsy and the offered value is
truthy (valid, for brand). -/
def cascadePass3 (gt : List Char → Option GemFields) (t : List Char)
    (f : RecFields) : RecFields :=
  if !pyTruthyStr f.brand || !pyTruthyStr f.batch || !pyTruthyStr f.mfd ||
      !pyTruthyStr f.exp then
    match gt t with
    | some gf =>
      { brand :=
          if !pyTruthyStr f.brand && is_valid_brand gf.brand then
            some (pyStrip (gf.brand.getD []))
          else f.brand
        dosage :=
          if !pyTruthyStr f.dosage && pyTruthyStr gf.dosage then
            some (pyStrip (gf.dosage.getD []))
          else f.dosage
        batch :=
          if !pyTruthyStr f.batch && pyTruthyStr gf.batch then
            some (pyStrip (gf.batch.getD []))
          else f.batch
        mfd :=
          if !pyTruthyStr f.mfd && pyTruthyStr gf.mfd then
            some (pyStrip (gf.mfd.getD []))
          else f.mfd
        exp :=
          if !pyTruthyStr f.exp && pyTruthyStr gf.exp then
            some (pyStrip (gf.exp.getD []))
          else f.exp
        manufacturer :=
          if !pyTruthyStr f.manufacturer && pyTruthyStr gf.manufacturer then
            some (pyStrip (gf.manufacturer.getD []))
          else f.manufacturer
        mrp :=
          if !pyTruthyStr f.mrp && pyTruthyStr gf.mrp then
            some (pyStrip (gf.mrp.getD []))
          else f.mrp }
    | none => f
  else f

/-- The extraction cascade of the upload route (METHOD 1, then OCR text,
then METHOD 2 and METHOD 3 when the text is truthy). -/
def indexExtractCascade (gd : Option GemFields) (ocrText : Option (List Char))
    (rx : List Char → FieldKey → List Char)
    (gt : List Char → Option GemFields) : RecFields :=
  let f1 := cascadePass1 gd
  if pyTruthyStr ocrText then
    let t := normalize_vertical (ocrText.getD [])
    cascadePass3 gt t (cascadePass2 rx t f1)
  else f1

/-! ### Validity of parser outputs

Every date `parse_date_flexible` returns has a month between 1 and 12 and
a day between 1 and 31: the four pattern steps fix the day to 1 and check
or construct the month, and the strptime fallback validates the
`datetime` construction. -/

theorem findMonthAltGo_bounds (alts : List (List Char × Int))
    (hall : ∀ pv ∈ alts, 1 ≤ pv.2 ∧ pv.2 ≤ 12) :
    ∀ cs v k, findMonthAltGo alts cs = some (v, k) → 1 ≤ v ∧ v ≤ 12 := by
  induction alts with
  | nil => intro cs v k h; simp [findMonthAltGo] at h
  | cons pv rest ih =>
    intro cs v k h
    obtain ⟨p, w⟩ := pv
    simp only [findMonthAltGo] at h
    by_cases hs : startsWithCI p cs
    · rw [if_pos hs] at h
      obtain h1 := Option.some.inj h
      rw [Prod.mk.injEq] at h1
      have hm := hall (p, w) (List.mem_cons_self _ _)
      simp only at hm
      omega
    · rw [if_neg hs] at h
      exact ih (fun pv hpv => hall pv (List.mem_cons_of_mem _ hpv)) cs v k h

theorem findMonthAlt_bounds (cs : List Char) (v : Int) (k : Nat)
    (h : findMonthAlt cs = some (v, k)) : 1 ≤ v ∧ v ≤ 12 :=
  findMonthAltGo_bounds monthAlts (by decide) cs v k h

theorem tryP1At_bounds (prev : Option Char) (cs : List Char) (mm : Int)
    (digits : List Char) (h : tryP1At prev cs = some (mm, digits)) :
    1 ≤ mm ∧ mm ≤ 12 := by
  unfold tryP1At at h
  split at h
  · split at h
    · exact absurd h (by simp)
    · next v k heq =>
      dsimp only at h
      split at h
      · obtain h1 := Option.some.inj h
        rw [Prod.mk.injEq] at h1
        have hb := findMonthAlt_bounds cs v k heq
        omega
      · exact absurd h (by simp)
  · exact absurd h (by simp)

theorem searchP1_bounds (prev : Option Char) (cs : List Char) :
    ∀ mm digits, searchP1 prev cs = some (mm, digits) → 1 ≤ mm ∧ mm ≤ 12 := by
  induction cs generalizing prev with
  | nil => intro mm digits h; simp [searchP1] at h
  | cons c rest ih =>
    intro mm digits h
    simp only [searchP1] at h
    split at h
    · next r heq =>
      obtain rfl := Option.some.inj h
      exact tryP1At_bounds prev (c :: rest) _ _ heq
    · exact ih (some c) mm digits h

theorem pdfStep1_valid (s : List Char) (d : PyDate) (h : pdfStep1 s = some d) :
    validDate d := by
  unfold pdfStep1 at h
  split at h
  · exact absurd h (by simp)
  · next mm digits heq =>
    dsimp only at h
    split at h
    · obtain rfl := Option.some.inj h
      have hb := searchP1_bounds none s mm digits heq
      unfold validDate
      dsimp only
      omega
    · exact absurd h (by simp)

theorem pdfStep2_valid (s : List Char) (d : PyDate) (h : pdfStep2 s = some d) :
    validDate d := by
  unfold pdfStep2 at h
  split at h
  · exact absurd h (by simp)
  · next g1 g2 =>
    dsimp only at h
    split at h
    · next hcond =>
      obtain rfl := Option.some.inj h
      simp only [Bool.and_eq_true, decide_eq_true_eq] at hcond
      unfold validDate
      dsimp only
      omega
    · exact absurd h (by simp)

theorem pdfStep3_valid (s : List Char) (d : PyDate) (h : pdfStep3 s = some d) :
    validDate d := by
  unfold pdfStep3 at h
  split at h
  · exact absurd h (by simp)
  · dsimp only at h
    split at h
    · obtain rfl := Option.some.inj h
      unfold validDate
      dsimp only
      omega
    · exact absurd h (by simp)

theorem pdfStep4_valid (s : List Char) (d : PyDate) (h : pdfStep4 s = some d) :
    validDate d := by
  unfold pdfStep4 at h
  split at h
  · exact absurd h (by simp)
  · dsimp only at h
    split at h
    · obtain rfl := Option.some.inj h
      unfold validDate
      dsimp only
      omega
    · exact absurd h (by simp)

theorem daysInMonth_le_31 (y m : Int) : daysInMonth y m ≤ 31 := by
  unfold daysInMonth
  split_ifs <;> norm_num

theorem pyDateOK_valid {y m d : Int} (h : pyDateOK y m d = true) :
    1 ≤ m ∧ m ≤ 12 ∧ 1 ≤ d ∧ d ≤ 31 := by
  unfold pyDateOK at h
  have h31 := daysInMonth_le_31 y m
  simp only [Bool.and_eq_true, decide_eq_true_eq] at h
  omega

theorem runFmtFinish_valid (acc : StrpAcc) (d : PyDate)
    (h : runFmtFinish acc = some d) : validDate d := by
  unfold runFmtFinish at h
  split at h
  · next hok0 =>
    split at h
    · split at h
      · next hok =>
        obtain rfl := Option.some.inj h
        have := pyDateOK_valid hok
        unfold validDate
        dsimp only
        omega
      · exact absurd h (by simp)
    · obtain rfl := Option.some.inj h
      have := pyDateOK_valid hok0
      unfold validDate
      dsimp only
      omega
  · exact absurd h (by simp)

theorem runFmtDate_valid (fmt : List FmtTok) (cs : List Char) (d : PyDate)
    (h : runFmtDate fmt cs = some d) : validDate d := by
  unfold runFmtDate at h
  split at h
  · exact absurd h (by simp)
  · next acc heq => exact runFmtFinish_valid acc d h

theorem tryFmts_valid (fs : List (List FmtTok)) (cs : List Char) (d : PyDate)
    (h : tryFmts fs cs = some d) : validDate d := by
  induction fs with
  | nil => simp [tryFmts] at h
  | cons f rest ih =>
    simp only [tryFmts] at h
    split at h
    · next d0 heq =>
      split at h
      · exact (Option.some.inj h) ▸ runFmtDate_valid f cs d0 heq
      · exact ih h
    · exact ih h

theorem pdfFallback_valid (s : List Char) (d : PyDate)
    (h : pdfFallback s = some d) : validDate d :=
  tryFmts_valid strpFmts (strptimeNormalize s) d h

theorem pdfChain_valid (s : List Char) (d : PyDate) (h : pdfChain s = some d) :
    validDate d := by
  unfold pdfChain at h
  split at h
  · next heq => exact pdfStep1_valid s d (h ▸ heq)
  · split at h
    · next heq => exact pdfStep2_valid s d (h ▸ heq)
    · split at h
      · next heq => exact pdfStep3_valid s d (h ▸ heq)
      · split at h
        · next heq => exact pdfStep4_valid s d (h ▸ heq)
        · exact pdfFallback_valid s d h

theorem parse_date_flexible_valid (s : List Char) (d : PyDate)
    (h : parse_date_flexible s = some d) : validDate d := by
  unfold parse_date_flexible at h
  split at h
  · exact absurd h (by simp)
  · dsimp only at h
    split at h
    · exact absurd h (by simp)
    · exact pdfChain_valid (pyStrip s) d h

/-! ### Validity of mined candidates -/

theorem fdcLoop_valid (raws : List (List Char)) :
    ∀ seen d, d ∈ fdcLoop raws seen → validDate d := by
  induction raws with
  | nil => intro seen d h; simp [fdcLoop] at h
  | cons r rest ih =>
    intro seen d h
    simp only [fdcLoop] at h
    split at h
    · exact ih seen d h
    · split at h
      · next d0 heq =>
        rcases List.mem_cons.1 h with rfl | h2
        · exact parse_date_flexible_valid r d heq
        · exact ih _ d h2
      · exact ih _ d h

theorem insDate_subset (d : PyDate) (l : List PyDate) :
    ∀ x ∈ insDate d l, x = d ∨ x ∈ l := by
  induction l with
  | nil => intro x hx; simp [insDate] at hx; exact Or.inl hx
  | cons e rest ih =>
    intro x hx
    simp only [insDate] at hx
    split at hx
    · rcases List.mem_cons.1 hx with rfl | hx2
      · exact Or.inl rfl
      · exact Or.inr hx2
    · split at hx
      · exact Or.inr hx
      · rcases List.mem_cons.1 hx with rfl | hx2
        · exact Or.inr (List.mem_cons_self _ _)
        · rcases ih x hx2 with h1 | h1
          · exact Or.inl h1
          · exact Or.inr (List.mem_cons_of_mem _ h1)

theorem dedupSortDates_subset (l : List PyDate) :
    ∀ x ∈ dedupSortDates l, x ∈ l := by
  induction l with
  | nil => intro x hx; simp [dedupSortDates] at hx
  | cons a t ih =>
    intro x hx
    have : dedupSortDates (a :: t) = insDate a (dedupSortDates t) := rfl
    rw [this] at hx
    rcases insDate_subset a (dedupSortDates t) x hx with rfl | h1
    · exact List.mem_cons_self _ _
    · exact List.mem_cons_of_mem _ (ih x h1)

theorem find_date_candidates_valid (text : List Char) :
    ∀ d ∈ find_date_candidates text, validDate d := by
  intro d hd
  unfold find_date_candidates at hd
  split at hd
  · simp at hd
  · exact fdcLoop_valid _ [] d (dedupSortDates_subset _ d hd)

/-! ### Ordering invariant of the reconciler (claim C1) -/

theorem shelf_life_months_nonneg (text : List Char) (n : Int)
    (h : shelf_life_months text = some n) : 0 ≤ n := by
  unfold shelf_life_months at h
  split at h
  · exact absurd h (by simp)
  · split at h
    · exact (Option.some.inj h) ▸ Int.natCast_nonneg _
    · split at h
      · exact (Option.some.inj h) ▸ Int.natCast_nonneg _
      · exact absurd h (by simp)

/-- C1: for every full-OCR-text string and every combination of optional
manufacture/expiry date inputs (both present in either order, exactly one
present, or both absent), the pair returned by
`reconcile_dates_from_text` satisfies `mfd <= exp`. -/
theorem C1_reconciler_ordering (full_text : List Char)
    (mfd_dt exp_dt : Option PyDate)
    (hm : ∀ d, mfd_dt = some d → validDate d)
    (he : ∀ d, exp_dt = some d → validDate d) :
    dateLe (reconcile_dates_from_text full_text mfd_dt exp_dt).1
      (reconcile_dates_from_text full_text mfd_dt exp_dt).2 := by
  have hcand := find_date_candidates_valid full_text
  cases mfd_dt with
  | some m =>
    have hvm := hm m rfl
    cases exp_dt with
    | some e =>
      unfold reconcile_dates_from_text
      dsimp only
      by_cases hlt : dateLt e m
      · rw [if_pos hlt]
        by_cases hc : 2 ≤ (find_date_candidates full_text).length
        · rw [if_pos hc]
          exact pyMin_le_pyMax _ (by
            intro hnil
            rw [hnil] at hc
            simp at hc)
        · rw [if_neg hc]
          exact dateLe_of_lt hlt
      · rw [if_neg hlt]
        exact dateLe_of_not_lt hlt
    | none =>
      unfold reconcile_dates_from_text
      dsimp only
      by_cases hl : optIntTruthy (shelf_life_months full_text)
      · rw [if_pos hl]
        obtain ⟨n, hn⟩ : ∃ n, shelf_life_months full_text = some n := by
          cases hsl0 : shelf_life_months full_text with
          | none => rw [hsl0] at hl; simp [optIntTruthy] at hl
          | some n => exact ⟨n, rfl⟩
        have hn0 : n ≠ 0 := by
          rw [hn] at hl
          simpa [optIntTruthy] using hl
        have hge := shelf_life_months_nonneg full_text n hn
        rw [hn]
        dsimp only [Option.getD]
        exact dateLe_of_lt (dateLt_add_months m n ⟨hvm.1, hvm.2.1⟩ (by omega))
      · rw [if_neg hl]
        cases hfilter : (find_date_candidates full_text).filter
            (fun d => decide (dateLt m d)) with
        | nil =>
          dsimp only
          exact dateLe_of_lt (dateLt_add_months m 24 ⟨hvm.1, hvm.2.1⟩ (by norm_num))
        | cons a t =>
          dsimp only
          have hmem2 : pyMin (a :: t) ∈ (find_date_candidates full_text).filter
              (fun d => decide (dateLt m d)) := by
            rw [hfilter]
            exact pyMin_mem (a :: t) (by simp)
          have hf := List.mem_filter.1 hmem2
          exact dateLe_of_lt (of_decide_eq_true hf.2)
  | none =>
    cases exp_dt with
    | some e =>
      have hve := he e rfl
      unfold reconcile_dates_from_text
      dsimp only
      cases hfilter : (find_date_candidates full_text).filter
          (fun d => decide (dateLt d e)) with
      | nil =>
        dsimp only
        by_cases hl : optIntTruthy (shelf_life_months full_text)
        · rw [if_pos hl]
          obtain ⟨n, hn⟩ : ∃ n, shelf_life_months full_text = some n := by
            cases hsl0 : shelf_life_months full_text with
            | none => rw [hsl0] at hl; simp [optIntTruthy] at hl
            | some n => exact ⟨n, rfl⟩
          have hn0 : n ≠ 0 := by
            rw [hn] at hl
            simpa [optIntTruthy] using hl
          have hge := shelf_life_months_nonneg full_text n hn
          rw [hn]
          dsimp only [Option.getD]
          exact dateLe_of_lt (add_months_dateLt e (-n) ⟨hve.1, hve.2.1⟩ (by omega))
        · rw [if_neg hl]
          exact dateLe_of_lt (add_months_dateLt e (-24) ⟨hve.1, hve.2.1⟩ (by norm_num))
      | cons a t =>
        dsimp only
        have hmem2 : pyMax (a :: t) ∈ (find_date_candidates full_text).filter
            (fun d => decide (dateLt d e)) := by
          rw [hfilter]
          exact pyMax_mem (a :: t) (by simp)
        have hf := List.mem_filter.1 hmem2
        exact dateLe_of_lt (of_decide_eq_true hf.2)
    | none =>
      unfold reconcile_dates_from_text
      dsimp only
      by_cases hc : 2 ≤ (find_date_candidates full_text).length
      · rw [if_pos hc]
        exact pyMin_le_pyMax _ (by
          intro hnil
          rw [hnil] at hc
          simp at hc)
      · rw [if_neg hc]
        cases hcands : find_date_candidates full_text with
        | nil =>
          dsimp only
          decide
        | cons a t =>
          cases t with
          | nil =>
            have hva := hcand a (by rw [hcands]; exact List.mem_cons_self _ _)
            dsimp only
            exact dateLe_of_lt (dateLt_add_months a 24 ⟨hva.1, hva.2.1⟩ (by norm_num))
          | cons b t2 =>
            exfalso
            apply hc
            rw [hcands]
            simp only [List.length_cons]
            omega

/-- Witness for C1 at a concrete input (inverted dates over a text with
two mined candidates). -/
theorem C1_reconciler_ordering_witness :
    dateLe (reconcile_dates_from_text "6/22 6/25".data (some ⟨2026, 1, 1⟩)
        (some ⟨2023, 1, 1⟩)).1
      (reconcile_dates_from_text "6/22 6/25".data (some ⟨2026, 1, 1⟩)
        (some ⟨2023, 1, 1⟩)).2 :=
  C1_reconciler_ordering "6/22 6/25".data (some ⟨2026, 1, 1⟩) (some ⟨2023, 1, 1⟩)
    (fun d hd => by injection hd with h1; rw [← h1]; decide)
    (fun d hd => by injection hd with h1; rw [← h1]; decide)

/-! ### Inverted dates (claim C2) -/

/-- C2: when both input dates are present but inverted, the reconciler
returns (min, max) of the mined candidate set when it has at least two
elements and otherwise the two given dates swapped; concretely, with
mfd = (2026, 1), exp = (2023, 1) and the text `6/22 6/25`, whose only
parseable date tokens are (2022, 6) and (2025, 6), the result is
((2022, 6), (2025, 6)). -/
theorem C2_inverted_dates :
    (∀ (full_text : List Char) (m e : PyDate), dateLt e m →
      reconcile_dates_from_text full_text (some m) (some e) =
        if 2 ≤ (find_date_candidates full_text).length then
          (pyMin (find_date_candidates full_text),
            pyMax (find_date_candidates full_text))
        else (e, m)) ∧
    reconcile_dates_from_text "6/22 6/25".data (some ⟨2026, 1, 1⟩)
        (some ⟨2023, 1, 1⟩) = (⟨2022, 6, 1⟩, ⟨2025, 6, 1⟩) ∧
    find_date_candidates "6/22 6/25".data = [⟨2022, 6, 1⟩, ⟨2025, 6, 1⟩] := by
  refine ⟨?_, by decide, by decide⟩
  intro full_text m e hlt
  unfold reconcile_dates_from_text
  dsimp only
  rw [if_pos hlt]

/-- Witness for C2's universal part at the concrete scenario input. -/
theorem C2_inverted_dates_witness :
    reconcile_dates_from_text "6/22 6/25".data (some ⟨2026, 1, 1⟩)
        (some ⟨2023, 1, 1⟩) =
      if 2 ≤ (find_date_candidates "6/22 6/25".data).length then
        (pyMin (find_date_candidates "6/22 6/25".data),
          pyMax (find_date_candidates "6/22 6/25".data))
      else (⟨2023, 1, 1⟩, ⟨2026, 1, 1⟩) :=
  C2_inverted_dates.1 "6/22 6/25".data ⟨2026, 1, 1⟩ ⟨2023, 1, 1⟩ (by decide)

/-! ### Shelf life fills a missing expiry (claim C3)

The claim quantifies over every parseable shelf life N; the code guards
the branch with Python truthiness (`if life:`), so a parseable shelf life
of 0 months is ignored and the default-24-months path taken instead of
returning expiry = manufacture + 0. -/

/-- C3 counterexample: on the text `shelf life 0 months` the shelf life
parses to 0, yet the reconciler returns manufacture + 24 months, not
manufacture + 0 months = manufacture. -/
theorem C3_counterexample :
    shelf_life_months "shelf life 0 months".data = some 0 ∧
    reconcile_dates_from_text "shelf life 0 months".data (some ⟨2024, 1, 1⟩)
        none = (⟨2024, 1, 1⟩, ⟨2026, 1, 1⟩) ∧
    add_months ⟨2024, 1, 1⟩ 0 = ⟨2024, 1, 1⟩ ∧
    ((⟨2026, 1, 1⟩ : PyDate) ≠ ⟨2024, 1, 1⟩) := by
  refine ⟨by decide, by decide, by decide, by decide⟩

/-- C3 as amended: when the manufacture date is present, the expiry date
absent and a nonzero shelf life of N months is parseable from the text,
the reconciler returns expiry = manufacture + N months; concretely,
manufacture (2024, 1) with text `shelf life 24 months` yields expiry
(2026, 1). -/
theorem C3_shelf_life_amended :
    (∀ (full_text : List Char) (m : PyDate) (n : Int),
      shelf_life_months full_text = some n → n ≠ 0 →
      reconcile_dates_from_text full_text (some m) none = (m, add_months m n)) ∧
    reconcile_dates_from_text "shelf life 24 months".data (some ⟨2024, 1, 1⟩)
        none = (⟨2024, 1, 1⟩, ⟨2026, 1, 1⟩) := by
  constructor
  · intro full_text m n hsl hn0
    unfold reconcile_dates_from_text
    dsimp only
    rw [hsl]
    have htr : optIntTruthy (some n) = true := by
      simp [optIntTruthy, hn0]
    rw [if_pos htr]
    rfl
  · decide

/-- Witness for C3's amended universal part at the scenario input. -/
theorem C3_shelf_life_amended_witness :
    reconcile_dates_from_text "shelf life 24 months".data (some ⟨2024, 1, 1⟩)
        none = (⟨2024, 1, 1⟩, add_months ⟨2024, 1, 1⟩ 24) :=
  C3_shelf_life_amended.1 "shelf life 24 months".data ⟨2024, 1, 1⟩ 24
    (by decide) (by decide)

/-! ### The brand deny-list of the value normalizer (claim C7)

The source line

`if value.lower().split()[0] if value.split() else '' in invalid_starts:`

parses as `A if B else (C in invalid_starts)` by Python precedence, so
whenever the value has a token the branch tests the truthiness of the
first token, which is always a nonempty string: every brand value is
rejected, deny-listed or not.  The deny-list and its comment show the
intended check; the spec describes that intent and the code is a slip. -/

/-- C7 evaluation at the failing input: `Dolo-650` has a first token that
is not in the deny-list, yet the normalizer returns null for it (as it
does for every brand value). -/
theorem C7_brand_normalizer_rejects_valid_brand :
    clean_extracted_value (some "Dolo-650".data) FieldType.brand = none ∧
    invalidStarts.contains (lowerS "Dolo-650".data) = false ∧
    splitWS (lowerS "Dolo-650".data) = ["dolo-650".data] := by
  refine ⟨by decide, by decide, by decide⟩

/-! ### OCR backend cascade (claim C9) -/

theorem pyTruthyStr_ne_none {x : Option (List Char)} (h : pyTruthyStr x = true) :
    x ≠ none := by
  cases x with
  | none => simp [pyTruthyStr] at h
  | some s => simp

/-- C9: with backends modelled as oracles, if the local OCR backend yields
no text (null, empty, or an internally caught exception) and the
vision-language model backend is configured and yields non-empty text, the
orchestrator returns exactly that text and never invokes the cloud OCR
backend; and the orchestrator returns null exactly when every attempted
backend, including the final vision-language-model retry, was exhausted. -/
theorem C9_backend_cascade :
    (∀ (tessAvail : Bool) (tessRes gem1 visionRes gem2 : Option (List Char)),
      pyTruthyStr tessRes = false → pyTruthyStr gem1 = true →
      (ocr_extract_text tessAvail true tessRes gem1 visionRes gem2).1 = gem1 ∧
      Backend.vision ∉
        (ocr_extract_text tessAvail true tessRes gem1 visionRes gem2).2) ∧
    (∀ (tessAvail gemOk : Bool) (tessRes gem1 visionRes gem2 : Option (List Char)),
      (ocr_extract_text tessAvail gemOk tessRes gem1 visionRes gem2).1 = none ↔
        ((tessAvail = true → pyTruthyStr tessRes = false) ∧
          (gemOk = true → pyTruthyStr gem1 = false ∧ pyTruthyStr gem2 = false) ∧
          pyTruthyStr visionRes = false)) := by
  constructor
  · intro tessAvail tessRes gem1 visionRes gem2 h1 h2
    cases tessAvail <;>
      simp [ocr_extract_text, ocrStep2, ocrStep3, ocrStep4, h1, h2]
  · intro tessAvail gemOk tessRes gem1 visionRes gem2
    cases tessAvail <;> cases gemOk <;>
      by_cases h1 : pyTruthyStr tessRes = true <;>
      by_cases h2 : pyTruthyStr gem1 = true <;>
      by_cases h3 : pyTruthyStr visionRes = true <;>
      by_cases h4 : pyTruthyStr gem2 = true <;>
      simp_all [ocr_extract_text, ocrStep2, ocrStep3, ocrStep4,
        pyTruthyStr_ne_none]

/-- Witness for C9's first part at a concrete input. -/
theorem C9_backend_cascade_witness :
    (ocr_extract_text true true none (some "GEMINI TEXT".data) none none).1 =
        some "GEMINI TEXT".data ∧
      Backend.vision ∉
        (ocr_extract_text true true none (some "GEMINI TEXT".data) none none).2 :=
  C9_backend_cascade.1 true none (some "GEMINI TEXT".data) none none
    (by decide) (by decide)

/-! ### Vertical-line normalization (claim C10) -/

theorem length_dropWhile_le_gen {α : Type} (p : α → Bool) (l : List α) :
    (l.dropWhile p).length ≤ l.length := by
  induction l with
  | nil => simp
  | cons a t ih =>
    rw [List.dropWhile_cons]
    split_ifs with h
    · exact Nat.le_succ_of_le ih
    · simp

/-- The claim's reading of `normalize_vertical`, stated over the line
list: strip every line, group maximal runs of single-alphanumeric lines,
and concatenate each run into one line (a run of length one and a
non-single line are left as their stripped selves), preserving order. -/
def runsBy (p : List Char → Bool) : List (List Char) → List (List (List Char))
  | [] => []
  | l :: rest =>
    if p l then (l :: rest.takeWhile p) :: runsBy p (rest.dropWhile p)
    else [l] :: runsBy p rest
termination_by l => l.length
decreasing_by
  · simp only [List.length_cons]
    exact Nat.lt_succ_of_le (length_dropWhile_le_gen _ _)
  · simp only [List.length_cons]
    exact Nat.lt_succ_self _

/-- The specified transformation of the line list (see `runsBy`). -/
def normalizeVerticalByRuns (lines : List (List Char)) : List (List Char) :=
  (runsBy isSingleAlnum (lines.map pyStrip)).map List.flatten

theorem nvGo_eq_runs (lines : List (List Char)) :
    (∀ r, nvGo (some r) lines =
      (r ++ ((lines.map pyStrip).takeWhile isSingleAlnum).flatten) ::
        (runsBy isSingleAlnum
          ((lines.map pyStrip).dropWhile isSingleAlnum)).map List.flatten) ∧
    nvGo none lines =
      (runsBy isSingleAlnum (lines.map pyStrip)).map List.flatten := by
  induction lines with
  | nil =>
    constructor
    · intro r
      simp [nvGo, runsBy]
    · simp [nvGo, runsBy]
  | cons l rest ih =>
    have hsome := ih.1
    have hnone := ih.2
    by_cases hp : isSingleAlnum (pyStrip l)
    · constructor
      · intro r
        simp only [nvGo, hp, if_pos, List.map_cons, List.takeWhile_cons, hp,
          if_true, List.dropWhile_cons, List.flatten_cons]
        rw [hsome (r ++ pyStrip l)]
        simp [List.append_assoc]
      · simp only [nvGo, hp, if_true, List.map_cons]
        rw [hsome (pyStrip l)]
        simp only [runsBy, hp, if_true, List.map_cons, List.flatten_cons]
    · constructor
      · intro r
        simp only [nvGo, hp, if_false, List.map_cons, List.takeWhile_cons,
          List.dropWhile_cons, Bool.false_eq_true, List.flatten_nil]
        rw [hnone]
        simp only [runsBy, hp, List.map_cons, List.flatten_cons]
        simp
      · simp only [nvGo, hp, if_false, List.map_cons]
        rw [hnone]
        simp only [runsBy, hp, List.map_cons, List.flatten_cons]
        simp

/-- C10: before regex extraction the OCR text is rewritten by
`normalize_vertical`: on the line list of the text, every maximal run of
consecutive lines each consisting of exactly one alphanumeric character
after stripping is concatenated into a single line in original order,
every other line is whitespace-stripped but otherwise unchanged, and the
relative order of lines is preserved; the result is the newline join. -/
theorem C10_normalize_vertical (text : List Char) :
    normalize_vertical text =
      List.intercalate ['\n'] (normalizeVerticalByRuns (splitlinesPy text)) := by
  unfold normalize_vertical normalizeVerticalByRuns
  rw [(nvGo_eq_runs (splitlinesPy text)).2]

/-! ### The extraction cascade (claim C8)

`find_first_match` stores the truthy placeholder string
`Information not available` for a field its patterns do not match; the
third pass guards every assignment (and its own trigger) with Python
falsiness, so a field other than brand left unfound by the regex pass
cannot be filled by the model-over-text pass.  Only brand is reset to
`None` when invalid (the placeholder is invalid), and so stays fillable. -/

set_option maxHeartbeats 2000000 in
/-- C8 counterexample: the direct-image pass yields nothing, OCR text is
present, the regex pass finds nothing (placeholder for every field), and
the model-over-text pass offers batch `B123` (and a valid brand): the
final batch is the truthy placeholder, not `B123` — the third pass could
not fill a field left unfound by the regex pass — while brand (reset to
null when invalid) was filled. -/
theorem C8_counterexample :
    indexExtractCascade none (some "x".data) (fun _ _ => infoNotAvailable)
        (fun _ => some ⟨some "BrandX".data, none, some "B123".data, none,
          none, none, none⟩) =
      ⟨some "BrandX".data, some infoNotAvailable, some infoNotAvailable,
        some infoNotAvailable, some infoNotAvailable, some infoNotAvailable,
        some infoNotAvailable⟩ ∧
    some infoNotAvailable ≠ some "B123".data := by
  exact ⟨by decide, by decide⟩

theorem cascadePass2_keeps_brand (rx : List Char → FieldKey → List Char)
    (t : List Char) (f : RecFields) (h : pyTruthyStr f.brand = true) :
    (cascadePass2 rx t f).brand = f.brand := by
  simp [cascadePass2, h]

theorem cascadePass2_keeps_dosage (rx : List Char → FieldKey → List Char)
    (t : List Char) (f : RecFields) (h : pyTruthyStr f.dosage = true) :
    (cascadePass2 rx t f).dosage = f.dosage := by
  simp [cascadePass2, h]

theorem cascadePass2_keeps_batch (rx : List Char → FieldKey → List Char)
    (t : List Char) (f : RecFields) (h : pyTruthyStr f.batch = true) :
    (cascadePass2 rx t f).batch = f.batch := by
  simp [cascadePass2, h]

theorem cascadePass2_keeps_mfd (rx : List Char → FieldKey → List Char)
    (t : List Char) (f : RecFields) (h : pyTruthyStr f.mfd = true) :
    (cascadePass2 rx t f).mfd = f.mfd := by
  simp [cascadePass2, h]

theorem cascadePass2_keeps_exp (rx : List Char → FieldKey → List Char)
    (t : List Char) (f : RecFields) (h : pyTruthyStr f.exp = true) :
    (cascadePass2 rx t f).exp = f.exp := by
  simp [cascadePass2, h]

theorem cascadePass2_keeps_manufacturer (rx : List Char → FieldKey → List Char)
    (t : List Char) (f : RecFields) (h : pyTruthyStr f.manufacturer = true) :
    (cascadePass2 rx t f).manufacturer = f.manufacturer := by
  simp [cascadePass2, h]

theorem cascadePass2_keeps_mrp (rx : List Char → FieldKey → List Char)
    (t : List Char) (f : RecFields) (h : pyTruthyStr f.mrp = true) :
    (cascadePass2 rx t f).mrp = f.mrp := by
  simp [cascadePass2, h]

theorem cascadePass3_keeps_brand (gt : List Char → Option GemFields)
    (t : List Char) (f : RecFields) (h : pyTruthyStr f.brand = true) :
    (cascadePass3 gt t f).brand = f.brand := by
  unfold cascadePass3
  split
  · cases hgt : gt t with
    | none => rfl
    | some gf => simp [h]
  · rfl

theorem cascadePass3_keeps_dosage (gt : List Char → Option GemFields)
    (t : List Char) (f : RecFields) (h : pyTruthyStr f.dosage = true) :
    (cascadePass3 gt t f).dosage = f.dosage := by
  unfold cascadePass3
  split
  · cases hgt : gt t with
    | none => rfl
    | some gf => simp [h]
  · rfl

theorem cascadePass3_keeps_batch (gt : List Char → Option GemFields)
    (t : List Char) (f : RecFields) (h : pyTruthyStr f.batch = true) :
    (cascadePass3 gt t f).batch = f.batch := by
  unfold cascadePass3
  split
  · cases hgt : gt t with
    | none => rfl
    | some gf => simp [h]
  · rfl

theorem cascadePass3_keeps_mfd (gt : List Char → Option GemFields)
    (t : List Char) (f : RecFields) (h : pyTruthyStr f.mfd = true) :
    (cascadePass3 gt t f).mfd = f.mfd := by
  unfold cascadePass3
  split
  · cases hgt : gt t with
    | none => rfl
    | some gf => simp [h]
  · rfl

theorem cascadePass3_keeps_exp (gt : List Char → Option GemFields)
    (t : List Char) (f : RecFields) (h : pyTruthyStr f.exp = true) :
    (cascadePass3 gt t f).exp = f.exp := by
  unfold cascadePass3
  split
  · cases hgt : gt t with
    | none => rfl
    | some gf => simp [h]
  · rfl

theorem cascadePass3_keeps_manufacturer (gt : List Char → Option GemFields)
    (t : List Char) (f : RecFields) (h : pyTruthyStr f.manufacturer = true) :
    (cascadePass3 gt t f).manufacturer = f.manufacturer := by
  unfold cascadePass3
  split
  · cases hgt : gt t with
    | none => rfl
    | some gf => simp [h]
  · rfl

theorem cascadePass3_keeps_mrp (gt : List Char → Option GemFields)
    (t : List Char) (f : RecFields) (h : pyTruthyStr f.mrp = true) :
    (cascadePass3 gt t f).mrp = f.mrp := by
  unfold cascadePass3
  split
  · cases hgt : gt t with
    | none => rfl
    | some gf => simp [h]
  · rfl

/-- C8 as amended: each later pass only assigns a field whose current
value is falsy, so no pass overwrites a truthy value produced by the
direct-image pass (stated for all seven fields over arbitrary backend
oracles); but because the regex pass stores the truthy placeholder for
unfound fields, of the fields left unfound by the regex pass only brand —
which is reset to null when invalid, the placeholder included — remains
fillable by the model-over-text pass, as in the concrete run where the
regex pass found nothing and the model-over-text pass supplied the
brand. -/
theorem C8_cascade_no_overwrite :
    (∀ (gd : Option GemFields) (ocrText : Option (List Char))
        (rx : List Char → FieldKey → List Char)
        (gt : List Char → Option GemFields),
      (pyTruthyStr (cascadePass1 gd).brand = true →
        (indexExtractCascade gd ocrText rx gt).brand = (cascadePass1 gd).brand) ∧
      (pyTruthyStr (cascadePass1 gd).dosage = true →
        (indexExtractCascade gd ocrText rx gt).dosage = (cascadePass1 gd).dosage) ∧
      (pyTruthyStr (cascadePass1 gd).batch = true →
        (indexExtractCascade gd ocrText rx gt).batch = (cascadePass1 gd).batch) ∧
      (pyTruthyStr (cascadePass1 gd).mfd = true →
        (indexExtractCascade gd ocrText rx gt).mfd = (cascadePass1 gd).mfd) ∧
      (pyTruthyStr (cascadePass1 gd).exp = true →
        (indexExtractCascade gd ocrText rx gt).exp = (cascadePass1 gd).exp) ∧
      (pyTruthyStr (cascadePass1 gd).manufacturer = true →
        (indexExtractCascade gd ocrText rx gt).manufacturer =
          (cascadePass1 gd).manufacturer) ∧
      (pyTruthyStr (cascadePass1 gd).mrp = true →
        (indexExtractCascade gd ocrText rx gt).mrp = (cascadePass1 gd).mrp)) ∧
    (indexExtractCascade none (some "x".data) (fun _ _ => infoNotAvailable)
        (fun _ => some ⟨some "BrandX".data, none, some "B123".data, none,
          none, none, none⟩)).brand = some "BrandX".data := by
  refine ⟨?_, by decide⟩
  intro gd ocrText rx gt
  by_cases hocr : pyTruthyStr ocrText = true
  · simp only [indexExtractCascade, hocr, if_true]
    refine ⟨fun h => ?_, fun h => ?_, fun h => ?_, fun h => ?_, fun h => ?_,
      fun h => ?_, fun h => ?_⟩
    · rw [cascadePass3_keeps_brand _ _ _
        (by rw [cascadePass2_keeps_brand _ _ _ h]; exact h),
        cascadePass2_keeps_brand _ _ _ h]
    · rw [cascadePass3_keeps_dosage _ _ _
        (by rw [cascadePass2_keeps_dosage _ _ _ h]; exact h),
        cascadePass2_keeps_dosage _ _ _ h]
    · rw [cascadePass3_keeps_batch _ _ _
        (by rw [cascadePass2_keeps_batch _ _ _ h]; exact h),
        cascadePass2_keeps_batch _ _ _ h]
    · rw [cascadePass3_keeps_mfd _ _ _
        (by rw [cascadePass2_keeps_mfd _ _ _ h]; exact h),
        cascadePass2_keeps_mfd _ _ _ h]
    · rw [cascadePass3_keeps_exp _ _ _
        (by rw [cascadePass2_keeps_exp _ _ _ h]; exact h),
        cascadePass2_keeps_exp _ _ _ h]
    · rw [cascadePass3_keeps_manufacturer _ _ _
        (by rw [cascadePass2_keeps_manufacturer _ _ _ h]; exact h),
        cascadePass2_keeps_manufacturer _ _ _ h]
    · rw [cascadePass3_keeps_mrp _ _ _
        (by rw [cascadePass2_keeps_mrp _ _ _ h]; exact h),
        cascadePass2_keeps_mrp _ _ _ h]
  · simp only [indexExtractCascade, hocr]
    refine ⟨?_, ?_, ?_, ?_, ?_, ?_, ?_⟩ <;> (intro _; simp)

set_option maxHeartbeats 2000000 in
/-- Witness for C8's amended universal part: a truthy batch from the
direct-image pass survives the later passes unchanged. -/
theorem C8_cascade_no_overwrite_witness :
    (indexExtractCascade
        (some ⟨none, some "650 mg".data, some "ALA306".data, none, none,
          none, none⟩)
        (some "x".data) (fun _ _ => infoNotAvailable) (fun _ => none)).batch =
      (cascadePass1 (some ⟨none, some "650 mg".data, some "ALA306".data, none,
        none, none, none⟩)).batch :=
  ((C8_cascade_no_overwrite.1
      (some ⟨none, some "650 mg".data, some "ALA306".data, none, none, none,
        none⟩)
      (some "x".data) (fun _ _ => infoNotAvailable) (fun _ => none)).2.2.1)
    (by decide)

/-! ### Date-parse round trip (claim C4)

`formatMMMYY` is the formatter named by the property itself (three-letter
upper-case month abbreviation, a dot, the last two digits of the year);
the parser side is the embedded `parse_date_flexible`.  With the clock
embedded as `utcnowYear = 2026` the claimed range is 1990 to 2046, whose
two-digit remainders 90 to 99 and 0 to 46 fold back to the original year
under `fix_year`. -/

def monthAbbrevsUpper : List (List Char) :=
  ["JAN".data, "FEB".data, "MAR".data, "APR".data, "MAY".data, "JUN".data,
   "JUL".data, "AUG".data, "SEP".data, "OCT".data, "NOV".data, "DEC".data]

/-- The "MMM.YY" formatter of the round-trip property. -/
def formatMMMYY (y m : Int) : List Char :=
  monthAbbrevsUpper.getD (m.toNat - 1) [] ++
    '.' :: [Char.ofNat (48 + (y.toNat % 100) / 10),
      Char.ofNat (48 + (y.toNat % 100) % 10)]

/-- The round trip checked over all 57 years and 12 months of the range. -/
def c4Check : Bool :=
  (List.range 57).all fun i => (List.range 12).all fun j =>
    parse_date_flexible (formatMMMYY (1990 + (i : Int)) (1 + (j : Int))) ==
      some ⟨1990 + (i : Int), 1 + (j : Int), 1⟩

set_option maxHeartbeats 12000000 in
theorem c4Check_true : c4Check = true := by decide

/-- C4: for every month (y, m) with `1990 ≤ y ≤ utcnowYear + 20`,
formatting it as "MMM.YY" and parsing the string back with the flexible
date parser returns exactly (y, m) (day normalized to 1); and `fix_year`
folds two-digit years below 50 into the 2000s and 50 to 99 into the
1900s. -/
theorem C4_roundtrip :
    (∀ y m : Int, 1990 ≤ y → y ≤ utcnowYear + 20 → 1 ≤ m → m ≤ 12 →
      parse_date_flexible (formatMMMYY y m) = some ⟨y, m, 1⟩) ∧
    (∀ yy : Int, 0 ≤ yy → yy < 50 → fix_year yy = 2000 + yy) ∧
    (∀ yy : Int, 50 ≤ yy → yy ≤ 99 → fix_year yy = 1900 + yy) := by
  refine ⟨?_, ?_, ?_⟩
  · intro y m h1 h2 h3 h4
    have hc := c4Check_true
    unfold c4Check at hc
    rw [List.all_eq_true] at hc
    have hy : y = 1990 + (((y - 1990).toNat : Nat) : Int) := by omega
    have hm : m = 1 + (((m - 1).toNat : Nat) : Int) := by omega
    have hylt : (y - 1990).toNat < 57 := by
      simp only [utcnowYear] at h2
      omega
    have hmlt : (m - 1).toNat < 12 := by omega
    have h5 := hc _ (List.mem_range.2 hylt)
    rw [List.all_eq_true] at h5
    have h6 := h5 _ (List.mem_range.2 hmlt)
    rw [beq_iff_eq] at h6
    rw [hy, hm]
    exact h6
  · intro yy h1 h2
    unfold fix_year
    rw [if_pos (by omega), if_pos h2]
  · intro yy h1 h2
    unfold fix_year
    rw [if_pos (by omega), if_neg (by omega)]

/-- Witness for C4 at (2024, 1): parsing "JAN.24" returns (2024, 1). -/
theorem C4_roundtrip_witness :
    parse_date_flexible (formatMMMYY 2024 1) = some ⟨2024, 1, 1⟩ :=
  C4_roundtrip.1 2024 1 (by norm_num) (by decide) (by norm_num) (by norm_num)

/-! ### Bare 4-digit years (claim C5)

Pattern 3 of the source is `\b(20` followed by two digits and a word
boundary: it never matches a year beginning with 19.  A 19xx year is only
recognized when the whole normalized string is exactly the four digits,
through the `%Y` entry of the strptime fallback; embedded in longer text
it is not recognized at all, refuting the claim as stated. -/

/-- C5 counterexample: `A 1995 B` contains the word-bounded in-range year
1995 and matches neither of the earlier parsing rules, yet the parser
returns null, not January 1995. -/
theorem C5_counterexample :
    pdfStep1 (pyStrip "A 1995 B".data) = none ∧
    pdfStep2 (pyStrip "A 1995 B".data) = none ∧
    (1990 ≤ (1995 : Int) ∧ (1995 : Int) ≤ utcnowYear + 20) ∧
    parse_date_flexible "A 1995 B".data = none := by
  exact ⟨by decide, by decide, by decide, by decide⟩

/-- C5 as amended: for a non-placeholder input on which neither the
month-name rule nor the numeric month/year rule fires, if the bare-year
rule (pattern 3, which only matches years beginning with 20) returns a
date then the parser returns exactly that date, which is January of an
in-range year; a year beginning with 19 is recognized only when the
string is exactly the four digits, via the `%Y` fallback template: parsing
`1995` yields (1995, 1) while `A 1995 B` parses to null. -/
theorem C5_bare_year_amended :
    (∀ (s : List Char) (d : PyDate), s.isEmpty = false →
      pdfPlaceholders.contains (lowerS (pyStrip s)) = false →
      pdfStep1 (pyStrip s) = none → pdfStep2 (pyStrip s) = none →
      pdfStep3 (pyStrip s) = some d →
      parse_date_flexible s = some d ∧ d.month = 1 ∧ d.day = 1 ∧
        valid_year d.year = true) ∧
    parse_date_flexible "1995".data = some ⟨1995, 1, 1⟩ ∧
    parse_date_flexible "A 1995 B".data = none := by
  refine ⟨?_, by decide, by decide⟩
  intro s d hne hph h1 h2 h3
  refine ⟨?_, ?_⟩
  · unfold parse_date_flexible
    rw [if_neg (by simp [hne])]
    dsimp only
    rw [if_neg (by rw [hph]; exact Bool.false_ne_true)]
    unfold pdfChain
    rw [h1, h2, h3]
  · unfold pdfStep3 at h3
    split at h3
    · exact absurd h3 (by simp)
    · dsimp only at h3
      split at h3
      · next hv =>
        obtain rfl := Option.some.inj h3
        exact ⟨rfl, rfl, hv⟩
      · exact absurd h3 (by simp)

/-- Witness for C5's amended universal part at the input `EXP 2024`. -/
theorem C5_bare_year_amended_witness :
    parse_date_flexible "EXP 2024".data = some ⟨2024, 1, 1⟩ ∧
      (⟨2024, 1, 1⟩ : PyDate).month = 1 ∧ (⟨2024, 1, 1⟩ : PyDate).day = 1 ∧
      valid_year (⟨2024, 1, 1⟩ : PyDate).year = true :=
  C5_bare_year_amended.1 "EXP 2024".data ⟨2024, 1, 1⟩ (by decide) (by decide)
    (by decide) (by decide) (by decide)

/-! ### Day normalization (claim C6): character facts -/

theorem u32_le_toNat {a b : UInt32} (h : a ≤ b) : a.toNat ≤ b.toNat := by
  rw [UInt32.le_def, BitVec.le_def] at h
  exact h

theorem isDigit_toNat {c : Char} (h : c.isDigit = true) :
    48 ≤ c.toNat ∧ c.toNat ≤ 57 := by
  simp only [Char.isDigit, ge_iff_le, Bool.and_eq_true, decide_eq_true_eq] at h
  exact ⟨u32_le_toNat h.1, u32_le_toNat h.2⟩

theorem charToNat_inj {c d : Char} (h : c.toNat = d.toNat) : c = d :=
  Char.eq_of_val_eq (UInt32.toNat.inj h)

theorem char_le_toNat {c d : Char} (h : c ≤ d) : c.toNat ≤ d.toNat :=
  u32_le_toNat (Char.le_def.1 h)

theorem digitsToNat_one (a : Char) : digitsToNat [a] = a.toNat - 48 := by
  simp [digitsToNat]

theorem digitsToNat_two (a b : Char) :
    digitsToNat [a, b] = (a.toNat - 48) * 10 + (b.toNat - 48) := by
  simp [digitsToNat]

/-! ### Day normalization: strptime token inversions -/

theorem isDigit_of_toNat {c : Char} (h1 : 48 ≤ c.toNat) (h2 : c.toNat ≤ 57) :
    c.isDigit = true := by
  simp only [Char.isDigit, ge_iff_le, Bool.and_eq_true, decide_eq_true_eq]
  constructor
  · rw [UInt32.le_def, BitVec.le_def]
    exact h1
  · rw [UInt32.le_def, BitVec.le_def]
    exact h2

theorem parsePercentD_inv (cs : List Char) (dv : Int) (r : List Char)
    (h : parsePercentD cs = some (dv, r)) :
    ∃ ds, cs = ds ++ r ∧ (∀ c ∈ ds, c.isDigit = true) ∧
      dv = ((digitsToNat ds : Nat) : Int) ∧ 1 ≤ dv ∧ dv ≤ 31 ∧
      (ds.length = 1 ∨ ds.length = 2) ∧ (13 ≤ dv → ds.length = 2) := by
  unfold parsePercentD at h
  split at h
  · exact absurd h (by simp)
  · next c rest =>
    split at h
    · next hc3 =>
      subst hc3
      split at h
      · next c2 rest2 =>
        split at h
        · next h01 =>
          simp only [Bool.or_eq_true, decide_eq_true_eq] at h01
          have h' := Option.some.inj h
          rw [Prod.mk.injEq] at h'
          obtain ⟨hdv, hr⟩ := h'
          subst hr
          have hc2n : c2.toNat = 48 ∨ c2.toNat = 49 := by
            rcases h01 with rfl | rfl
            · left; decide
            · right; decide
          refine ⟨['3', c2], rfl, ?_, ?_, ?_, ?_, by simp, fun _ => by simp⟩
          · intro x hx
            rcases List.mem_cons.1 hx with rfl | hx
            · decide
            · rcases List.mem_cons.1 hx with rfl | hx
              · exact isDigit_of_toNat (by omega) (by omega)
              · cases hx
          · rw [digitsToNat_two]
            have h3n : ('3' : Char).toNat = 51 := by decide
            omega
          · omega
          · omega
        · have h' := Option.some.inj h
          rw [Prod.mk.injEq] at h'
          obtain ⟨hdv, hr⟩ := h'
          subst hr
          refine ⟨['3'], rfl, by decide, ?_, by omega, by omega, by simp,
            by omega⟩
          rw [digitsToNat_one]
          have h3n : ('3' : Char).toNat = 51 := by decide
          omega
      · have h' := Option.some.inj h
        rw [Prod.mk.injEq] at h'
        obtain ⟨hdv, hr⟩ := h'
        subst hr
        refine ⟨['3'], rfl, by decide, ?_, by omega, by omega, by simp,
          by omega⟩
        rw [digitsToNat_one]
        have h3n : ('3' : Char).toNat = 51 := by decide
        omega
    · split at h
      · next h12 =>
        simp only [Bool.or_eq_true, decide_eq_true_eq] at h12
        have hcn : c.toNat = 49 ∨ c.toNat = 50 := by
          rcases h12 with rfl | rfl
          · left; decide
          · right; decide
        have hcd : c.isDigit = true := isDigit_of_toNat (by omega) (by omega)
        split at h
        · next c2 rest2 =>
          split at h
          · next hdig =>
            have hb := isDigit_toNat hdig
            have h' := Option.some.inj h
            rw [Prod.mk.injEq] at h'
            obtain ⟨hdv, hr⟩ := h'
            subst hr
            refine ⟨[c, c2], rfl, ?_, ?_, ?_, ?_, by simp, fun _ => by simp⟩
            · intro x hx
              rcases List.mem_cons.1 hx with rfl | hx
              · exact hcd
              · rcases List.mem_cons.1 hx with rfl | hx
                · exact hdig
                · cases hx
            · rw [digitsToNat_two]
              omega
            · omega
            · omega
          · have h' := Option.some.inj h
            rw [Prod.mk.injEq] at h'
            obtain ⟨hdv, hr⟩ := h'
            subst hr
            refine ⟨[c], rfl, ?_, ?_, by omega, by omega, by simp, by omega⟩
            · intro x hx
              rcases List.mem_cons.1 hx with rfl | hx
              · exact hcd
              · cases hx
            · rw [digitsToNat_one]
              omega
        · have h' := Option.some.inj h
          rw [Prod.mk.injEq] at h'
          obtain ⟨hdv, hr⟩ := h'
          subst hr
          refine ⟨[c], rfl, ?_, ?_, by omega, by omega, by simp, by omega⟩
          · intro x hx
            rcases List.mem_cons.1 hx with rfl | hx
            · exact hcd
            · cases hx
          · rw [digitsToNat_one]
            omega
      · split at h
        · next hc0 =>
          subst hc0
          split at h
          · next c2 rest2 =>
            split at h
            · next h19 =>
              simp only [Bool.and_eq_true, decide_eq_true_eq] at h19
              have hb1 := char_le_toNat h19.1
              have hb2 := char_le_toNat h19.2
              have h1n : ('1' : Char).toNat = 49 := by decide
              have h9n : ('9' : Char).toNat = 57 := by decide
              rw [h1n] at hb1
              rw [h9n] at hb2
              have h' := Option.some.inj h
              rw [Prod.mk.injEq] at h'
              obtain ⟨hdv, hr⟩ := h'
              subst hr
              refine ⟨['0', c2], rfl, ?_, ?_, by omega, by omega, by simp,
                by omega⟩
              · intro x hx
                rcases List.mem_cons.1 hx with rfl | hx
                · decide
                · rcases List.mem_cons.1 hx with rfl | hx
                  · exact isDigit_of_toNat (by omega) (by omega)
                  · cases hx
              · rw [digitsToNat_two]
                have h0n : ('0' : Char).toNat = 48 := by decide
                omega
            · exact absurd h (by simp)
          · exact absurd h (by simp)
        · split at h
          · next h49 =>
            simp only [Bool.and_eq_true, decide_eq_true_eq] at h49
            have hb1 := char_le_toNat h49.1
            have hb2 := char_le_toNat h49.2
            have h4n : ('4' : Char).toNat = 52 := by decide
            have h9n : ('9' : Char).toNat = 57 := by decide
            rw [h4n] at hb1
            rw [h9n] at hb2
            have h' := Option.some.inj h
            rw [Prod.mk.injEq] at h'
            obtain ⟨hdv, hr⟩ := h'
            subst hr
            refine ⟨[c], rfl, ?_, ?_, by omega, by omega, by simp, by omega⟩
            · intro x hx
              rcases List.mem_cons.1 hx with rfl | hx
              · exact isDigit_of_toNat (by omega) (by omega)
              · cases hx
            · rw [digitsToNat_one]
              omega
          · exact absurd h (by simp)

theorem parsePercentM_inv (cs : List Char) (mv : Int) (r : List Char)
    (h : parsePercentM cs = some (mv, r)) :
    ∃ ms, cs = ms ++ r ∧ (∀ c ∈ ms, c.isDigit = true) ∧
      mv = ((digitsToNat ms : Nat) : Int) ∧ 1 ≤ mv ∧ mv ≤ 12 ∧
      (ms.length = 1 ∨ ms.length = 2) := by
  unfold parsePercentM at h
  split at h
  · exact absurd h (by simp)
  · next c rest =>
    split at h
    · next hc1 =>
      subst hc1
      split at h
      · next c2 rest2 =>
        split at h
        · next h02 =>
          simp only [Bool.and_eq_true, decide_eq_true_eq] at h02
          have hb1 := char_le_toNat h02.1
          have hb2 := char_le_toNat h02.2
          have h0n : ('0' : Char).toNat = 48 := by decide
          have h2n : ('2' : Char).toNat = 50 := by decide
          rw [h0n] at hb1
          rw [h2n] at hb2
          have h' := Option.some.inj h
          rw [Prod.mk.injEq] at h'
          obtain ⟨hmv, hr⟩ := h'
          subst hr
          refine ⟨['1', c2], rfl, ?_, ?_, by omega, by omega, by simp⟩
          · intro x hx
            rcases List.mem_cons.1 hx with rfl | hx
            · decide
            · rcases List.mem_cons.1 hx with rfl | hx
              · exact isDigit_of_toNat (by omega) (by omega)
              · cases hx
          · rw [digitsToNat_two]
            have h1n : ('1' : Char).toNat = 49 := by decide
            omega
        · have h' := Option.some.inj h
          rw [Prod.mk.injEq] at h'
          obtain ⟨hmv, hr⟩ := h'
          subst hr
          refine ⟨['1'], rfl, by decide, ?_, by omega, by omega, by simp⟩
          rw [digitsToNat_one]
          have h1n : ('1' : Char).toNat = 49 := by decide
          omega
      · have h' := Option.some.inj h
        rw [Prod.mk.injEq] at h'
        obtain ⟨hmv, hr⟩ := h'
        subst hr
        refine ⟨['1'], rfl, by decide, ?_, by omega, by omega, by simp⟩
        rw [digitsToNat_one]
        have h1n : ('1' : Char).toNat = 49 := by decide
        omega
    · split at h
      · next hc0 =>
        subst hc0
        split at h
        · next c2 rest2 =>
          split at h
          · next h19 =>
            simp only [Bool.and_eq_true, decide_eq_true_eq] at h19
            have hb1 := char_le_toNat h19.1
            have hb2 := char_le_toNat h19.2
            have h1n : ('1' : Char).toNat = 49 := by decide
            have h9n : ('9' : Char).toNat = 57 := by decide
            rw [h1n] at hb1
            rw [h9n] at hb2
            have h' := Option.some.inj h
            rw [Prod.mk.injEq] at h'
            obtain ⟨hmv, hr⟩ := h'
            subst hr
            refine ⟨['0', c2], rfl, ?_, ?_, by omega, by omega, by simp⟩
            · intro x hx
              rcases List.mem_cons.1 hx with rfl | hx
              · decide
              · rcases List.mem_cons.1 hx with rfl | hx
                · exact isDigit_of_toNat (by omega) (by omega)
                · cases hx
            · rw [digitsToNat_two]
              have h0n : ('0' : Char).toNat = 48 := by decide
              omega
          · exact absurd h (by simp)
        · exact absurd h (by simp)
      · split at h
        · next h29 =>
          simp only [Bool.and_eq_true, decide_eq_true_eq] at h29
          have hb1 := char_le_toNat h29.1
          have hb2 := char_le_toNat h29.2
          have h2n : ('2' : Char).toNat = 50 := by decide
          have h9n : ('9' : Char).toNat = 57 := by decide
          rw [h2n] at hb1
          rw [h9n] at hb2
          have h' := Option.some.inj h
          rw [Prod.mk.injEq] at h'
          obtain ⟨hmv, hr⟩ := h'
          subst hr
          refine ⟨[c], rfl, ?_, ?_, by omega, by omega, by simp⟩
          · intro x hx
            rcases List.mem_cons.1 hx with rfl | hx
            · exact isDigit_of_toNat (by omega) (by omega)
            · cases hx
          · rw [digitsToNat_one]
            omega
        · exact absurd h (by simp)

theorem parsePercentY4_inv (cs : List Char) (yv : Int) (r : List Char)
    (h : parsePercentY4 cs = some (yv, r)) :
    ∃ a b c d, cs = a :: b :: c :: d :: r ∧ a.isDigit = true ∧
      b.isDigit = true ∧ c.isDigit = true ∧ d.isDigit = true ∧
      yv = ((digitsToNat [a, b, c, d] : Nat) : Int) := by
  unfold parsePercentY4 at h
  split at h
  · next a b c d rest =>
    split at h
    · next hdig =>
      simp only [Bool.and_eq_true] at hdig
      have h' := Option.some.inj h
      rw [Prod.mk.injEq] at h'
      obtain ⟨hyv, hr⟩ := h'
      subst hr
      exact ⟨a, b, c, d, rfl, hdig.1.1.1, hdig.1.1.2, hdig.1.2, hdig.2,
        hyv.symm⟩
    · exact absurd h (by simp)
  · exact absurd h (by simp)

theorem fix_year_of_ge {y : Int} (h : 100 ≤ y) : fix_year y = y := by
  unfold fix_year
  rw [if_neg (by omega)]

/-- Inversion of the strptime runner on a day-month-year format: the input
decomposes as day digits, the separator, month digits, the separator, and
exactly four year digits, and the resulting date carries the folded year. -/
theorem runFmtDateDMY_inv (sep : Char) (cs : List Char) (d : PyDate)
    (h : runFmtDate [.pd, .lit sep, .pm, .lit sep, .py4] cs = some d) :
    ∃ ds ms y1 y2 y3 y4, cs = ds ++ sep :: (ms ++ sep :: [y1, y2, y3, y4]) ∧
      (∀ c ∈ ds, c.isDigit = true) ∧ (∀ c ∈ ms, c.isDigit = true) ∧
      y1.isDigit = true ∧ y2.isDigit = true ∧ y3.isDigit = true ∧
      y4.isDigit = true ∧
      (ds.length = 1 ∨ ds.length = 2) ∧ (ms.length = 1 ∨ ms.length = 2) ∧
      1 ≤ ((digitsToNat ds : Nat) : Int) ∧ ((digitsToNat ds : Nat) : Int) ≤ 31 ∧
      (13 ≤ ((digitsToNat ds : Nat) : Int) → ds.length = 2) ∧
      1 ≤ ((digitsToNat ms : Nat) : Int) ∧ ((digitsToNat ms : Nat) : Int) ≤ 12 ∧
      d.year = fix_year ((digitsToNat [y1, y2, y3, y4] : Nat) : Int) := by
  unfold runFmtDate at h
  split at h
  · exact absurd h (by simp)
  · next acc heq =>
    simp only [runFmtGo] at heq
    split at heq
    · next dv r1 hd =>
      split at heq
      · next c2 r2 =>
        split at heq
        · next hc2 =>
          replace hc2 := hc2.symm
          subst hc2
          split at heq
          · next mv r3 hm =>
            split at heq
            · next c4 r4 =>
              split at heq
              · next hc4 =>
                replace hc4 := hc4.symm
                subst hc4
                split at heq
                · next yv r5 hy =>
                  split at heq
                  · next hemp =>
                    obtain rfl := Option.some.inj heq
                    rw [List.isEmpty_iff] at hemp
                    subst hemp
                    obtain ⟨ds, hds, hdsdig, hdval, hd1, hd31, hdlen, hd13⟩ :=
                      parsePercentD_inv cs dv (sep :: r2) hd
                    obtain ⟨ms, hms, hmsdig, hmval, hm1, hm12, hmlen⟩ :=
                      parsePercentM_inv r2 mv (sep :: r4) hm
                    obtain ⟨y1, y2, y3, y4, hy4, hy1d, hy2d, hy3d, hy4d,
                      hyval⟩ := parsePercentY4_inv r4 yv [] hy
                    refine ⟨ds, ms, y1, y2, y3, y4, ?_, hdsdig, hmsdig,
                      hy1d, hy2d, hy3d, hy4d, hdlen, hmlen, ?_, ?_, ?_,
                      ?_, ?_, ?_⟩
                    · rw [hds, hms, hy4]
                    · omega
                    · omega
                    · intro hge
                      exact hd13 (by omega)
                    · omega
                    · omega
                    · unfold runFmtFinish at h
                      split at h
                      · split at h
                        · split at h
                          · obtain rfl := Option.some.inj h
                            dsimp only
                            rw [hyval]
                          · exact absurd h (by simp)
                        · next hnlt =>
                          obtain rfl := Option.some.inj h
                          dsimp only at hnlt ⊢
                          rw [hyval] at hnlt ⊢
                          rw [fix_year_of_ge (by omega)]
                      · exact absurd h (by simp)
                  · exact absurd heq (by simp)
                · exact absurd heq (by simp)
              · exact absurd heq (by simp)
            · exact absurd heq (by simp)
          · exact absurd heq (by simp)
        · exact absurd heq (by simp)
      · exact absurd heq (by simp)
    · exact absurd heq (by simp)

theorem runFmtGo_day : ∀ (fmt : List FmtTok) (cs : List Char)
    (acc acc' : StrpAcc), FmtTok.pd ∉ fmt →
    runFmtGo fmt cs acc = some acc' → acc'.day = acc.day := by
  intro fmt
  induction fmt with
  | nil =>
    intro cs acc acc' _ h
    simp only [runFmtGo] at h
    split at h
    · obtain rfl := Option.some.inj h
      rfl
    · exact absurd h (by simp)
  | cons t ts ih =>
    intro cs acc acc' hnp h
    have hnts : FmtTok.pd ∉ ts := fun hm => hnp (List.mem_cons_of_mem _ hm)
    cases t with
    | lit c =>
      simp only [runFmtGo] at h
      split at h
      · next c2 rest =>
        split at h
        · exact ih rest acc acc' hnts h
        · exact absurd h (by simp)
      · exact absurd h (by simp)
    | ws =>
      simp only [runFmtGo] at h
      split at h
      · next rest hw => exact ih rest acc acc' hnts h
      · exact absurd h (by simp)
    | pm =>
      simp only [runFmtGo] at h
      split at h
      · next v rest hp => exact ih rest { acc with month := v } acc' hnts h
      · exact absurd h (by simp)
    | pd => exact absurd (List.mem_cons_self _ _) hnp
    | py2 =>
      simp only [runFmtGo] at h
      split at h
      · next v rest hp => exact ih rest { acc with year := v } acc' hnts h
      · exact absurd h (by simp)
    | py4 =>
      simp only [runFmtGo] at h
      split at h
      · next v rest hp => exact ih rest { acc with year := v } acc' hnts h
      · exact absurd h (by simp)
    | pb =>
      simp only [runFmtGo] at h
      split at h
      · next v rest hp => exact ih rest { acc with month := v } acc' hnts h
      · exact absurd h (by simp)
    | pbig =>
      simp only [runFmtGo] at h
      split at h
      · next v rest hp => exact ih rest { acc with month := v } acc' hnts h
      · exact absurd h (by simp)

theorem runFmtFinish_day (acc : StrpAcc) (d : PyDate)
    (h : runFmtFinish acc = some d) : d.day = acc.day := by
  unfold runFmtFinish at h
  split at h
  · split at h
    · split at h
      · obtain rfl := Option.some.inj h
        rfl
      · exact absurd h (by simp)
    · obtain rfl := Option.some.inj h
      rfl
  · exact absurd h (by simp)

/-- A format without the day token yields day 1. -/
theorem runFmtDate_day_of_no_pd (fmt : List FmtTok) (cs : List Char)
    (d : PyDate) (hnp : FmtTok.pd ∉ fmt)
    (h : runFmtDate fmt cs = some d) : d.day = 1 := by
  unfold runFmtDate at h
  split at h
  · exact absurd h (by simp)
  · next acc heq =>
    rw [runFmtFinish_day acc d h, runFmtGo_day fmt cs _ acc hnp heq]

theorem tryFmts_inv (fs : List (List FmtTok)) (cs : List Char) (d : PyDate)
    (h : tryFmts fs cs = some d) :
    ∃ fmt ∈ fs, runFmtDate fmt cs = some d ∧ valid_year d.year = true := by
  induction fs with
  | nil => simp [tryFmts] at h
  | cons f fs ih =>
    simp only [tryFmts] at h
    split at h
    · next d' heq =>
      split at h
      · next hvy =>
        obtain rfl := Option.some.inj h
        exact ⟨f, List.mem_cons_self _ _, heq, hvy⟩
      · obtain ⟨fmt, hmem, h1, h2⟩ := ih h
        exact ⟨fmt, List.mem_cons_of_mem _ hmem, h1, h2⟩
    · obtain ⟨fmt, hmem, h1, h2⟩ := ih h
      exact ⟨fmt, List.mem_cons_of_mem _ hmem, h1, h2⟩

/-- Every strptime fallback success either has day 1 (formats without the
day token) or came from one of the three day-month-year formats. -/
theorem pdfFallback_cases (s : List Char) (d : PyDate)
    (h : pdfFallback s = some d) :
    d.day = 1 ∨ ∃ sep, (sep = '/' ∨ sep = '-' ∨ sep = '.') ∧
      runFmtDate [.pd, .lit sep, .pm, .lit sep, .py4] (strptimeNormalize s) =
        some d ∧ valid_year d.year = true := by
  obtain ⟨fmt, hmem, hrun, hvy⟩ := tryFmts_inv _ _ _ h
  simp only [strpFmts, List.mem_cons, List.not_mem_nil, or_false] at hmem
  rcases hmem with rfl | rfl | rfl | rfl | rfl | rfl | rfl | rfl | rfl |
    rfl | rfl | rfl | rfl | rfl | rfl
  · exact Or.inl (runFmtDate_day_of_no_pd _ _ _ (by decide) hrun)
  · exact Or.inl (runFmtDate_day_of_no_pd _ _ _ (by decide) hrun)
  · exact Or.inl (runFmtDate_day_of_no_pd _ _ _ (by decide) hrun)
  · exact Or.inl (runFmtDate_day_of_no_pd _ _ _ (by decide) hrun)
  · exact Or.inl (runFmtDate_day_of_no_pd _ _ _ (by decide) hrun)
  · exact Or.inr ⟨'/', Or.inl rfl, hrun, hvy⟩
  · exact Or.inr ⟨'-', Or.inr (Or.inl rfl), hrun, hvy⟩
  · exact Or.inr ⟨'.', Or.inr (Or.inr rfl), hrun, hvy⟩
  · exact Or.inl (runFmtDate_day_of_no_pd _ _ _ (by decide) hrun)
  · exact Or.inl (runFmtDate_day_of_no_pd _ _ _ (by decide) hrun)
  · exact Or.inl (runFmtDate_day_of_no_pd _ _ _ (by decide) hrun)
  · exact Or.inl (runFmtDate_day_of_no_pd _ _ _ (by decide) hrun)
  · exact Or.inl (runFmtDate_day_of_no_pd _ _ _ (by decide) hrun)
  · exact Or.inl (runFmtDate_day_of_no_pd _ _ _ (by decide) hrun)
  · exact Or.inl (runFmtDate_day_of_no_pd _ _ _ (by decide) hrun)

theorem pdfStep1_day (s : List Char) (d : PyDate) (h : pdfStep1 s = some d) :
    d.day = 1 := by
  unfold pdfStep1 at h
  split at h
  · exact absurd h (by simp)
  · dsimp only at h
    split at h
    · obtain rfl := Option.some.inj h
      rfl
    · exact absurd h (by simp)

theorem pdfStep2_day (s : List Char) (d : PyDate) (h : pdfStep2 s = some d) :
    d.day = 1 := by
  unfold pdfStep2 at h
  split at h
  · exact absurd h (by simp)
  · dsimp only at h
    split at h
    · obtain rfl := Option.some.inj h
      rfl
    · exact absurd h (by simp)

theorem pdfStep3_day (s : List Char) (d : PyDate) (h : pdfStep3 s = some d) :
    d.day = 1 := by
  unfold pdfStep3 at h
  split at h
  · exact absurd h (by simp)
  · dsimp only at h
    split at h
    · obtain rfl := Option.some.inj h
      rfl
    · exact absurd h (by simp)

theorem pdfStep4_day (s : List Char) (d : PyDate) (h : pdfStep4 s = some d) :
    d.day = 1 := by
  unfold pdfStep4 at h
  split at h
  · exact absurd h (by simp)
  · dsimp only at h
    split at h
    · obtain rfl := Option.some.inj h
      rfl
    · exact absurd h (by simp)

theorem valid_year_iff (y : Int) :
    valid_year y = true ↔ (1990 ≤ y ∧ y ≤ 2046) := by
  simp [valid_year, utcnowYear, Bool.and_eq_true]

theorem fix_year_small (y : Int) (h0 : 0 ≤ y) (h50 : y < 50) :
    fix_year y = 2000 + y := by
  unfold fix_year
  rw [if_pos (by omega), if_pos h50]

theorem digit_single_le (a : Char) (ha : a.isDigit = true) :
    ((digitsToNat [a] : Nat) : Int) ≤ 9 := by
  rw [digitsToNat_one]
  have := isDigit_toNat ha
  omega

theorem noWS_decomp (ds ms : List Char) (sep y1 y2 y3 y4 : Char)
    (hds : ∀ c ∈ ds, c.isDigit = true) (hms : ∀ c ∈ ms, c.isDigit = true)
    (hy1 : y1.isDigit = true) (hy2 : y2.isDigit = true)
    (hy3 : y3.isDigit = true) (hy4 : y4.isDigit = true)
    (hsep : pyIsSpace sep = false) :
    noWS (ds ++ sep :: (ms ++ sep :: [y1, y2, y3, y4])) = true := by
  rw [noWS, List.all_eq_true]
  intro c hc
  simp only [List.mem_append, List.mem_cons, List.not_mem_nil, or_false] at hc
  rcases hc with hc | rfl | hc | rfl | rfl | rfl | rfl | rfl
  · simp [noWS_of_digit (hds c hc)]
  · simp [hsep]
  · simp [noWS_of_digit (hms c hc)]
  · simp [hsep]
  · simp [noWS_of_digit hy1]
  · simp [noWS_of_digit hy2]
  · simp [noWS_of_digit hy3]
  · simp [noWS_of_digit hy4]

/-- The strptime format with day, dot, month, dot, 4-digit year can never
match the normalized input: the normalization has removed every dot that
stands before a digit. -/
theorem dmy_dot_impossible (s1 : List Char) (d : PyDate)
    (hh : headOK s1 = true) (hl : lastOK s1 = true)
    (hrun : runFmtDate [.pd, .lit '.', .pm, .lit '.', .py4]
      (strptimeNormalize s1) = some d) : False := by
  obtain ⟨ds, ms, y1, y2, y3, y4, hteq, hdsdig, hmsdig, hy1, hy2, hy3, hy4,
    hdlen, hmlen, hd1, hd31, hd13, hm1, hm12, hdyear⟩ :=
    runFmtDateDMY_inv '.' _ d hrun
  have hnoWS : noWS (strptimeNormalize s1) = true := by
    rw [hteq]
    exact noWS_decomp ds ms '.' y1 y2 y3 y4 hdsdig hmsdig hy1 hy2 hy3 hy4
      (by decide)
  obtain ⟨m1, mrest, hms⟩ : ∃ m1 mrest, ms = m1 :: mrest := by
    rcases hmlen with h | h
    · obtain ⟨a, rfl⟩ := List.length_eq_one.mp h
      exact ⟨a, [], rfl⟩
    · rcases ms with _ | ⟨a, t⟩
      · simp at h
      · exact ⟨a, t, rfl⟩
  have hm1d : m1.isDigit = true :=
    hmsdig m1 (by rw [hms]; exact List.mem_cons_self _ _)
  have hDD : hasDD (strptimeNormalize s1) = true := by
    rw [hteq, hms]
    have hre : ds ++ '.' :: (m1 :: mrest ++ '.' :: [y1, y2, y3, y4]) =
        ds ++ '.' :: m1 :: (mrest ++ '.' :: [y1, y2, y3, y4]) := by simp
    rw [hre]
    exact hasDD_append ds m1 _ hm1d
  rcases strptimeNormalize_state s1 hh hl hnoWS with ⟨-, hsub⟩ | ⟨-, hsub⟩
  · have hf := subDot_hasDD s1
    rw [hsub, hDD] at hf
    cases hf
  · have hf := subDot_hasDD s1
    rw [hsub] at hf
    rw [show hasDD (' ' :: strptimeNormalize s1) =
      hasDD (strptimeNormalize s1) from by simp [hasDD]] at hf
    rw [hDD] at hf
    cases hf

/-- The strptime formats day/month/4-digit-year with slash or hyphen can
never fire: whenever one of them would match the normalized input, pattern
2 or pattern 4 already matched the stripped input earlier in the cascade. -/
theorem dmy_sep_impossible (s1 : List Char) (d : PyDate) (sep : Char)
    (hsd : sep.isDigit = false) (hsp : isP2Sep sep = true)
    (hsw : wordChar sep = false) (hsws : pyIsSpace sep = false)
    (hh : headOK s1 = true) (hl : lastOK s1 = true)
    (h2 : pdfStep2 s1 = none) (h4 : pdfStep4 s1 = none)
    (hrun : runFmtDate [.pd, .lit sep, .pm, .lit sep, .py4]
      (strptimeNormalize s1) = some d)
    (hvy : valid_year d.year = true) : False := by
  obtain ⟨ds, ms, y1, y2, y3, y4, hteq, hdsdig, hmsdig, hy1, hy2, hy3, hy4,
    hdlen, hmlen, hd1, hd31, hd13, hm1, hm12, hdyear⟩ :=
    runFmtDateDMY_inv sep _ d hrun
  have hnoWS : noWS (strptimeNormalize s1) = true := by
    rw [hteq]
    exact noWS_decomp ds ms sep y1 y2 y3 y4 hdsdig hmsdig hy1 hy2 hy3 hy4 hsws
  have hstate := strptimeNormalize_state s1 hh hl hnoWS
  have hvyd : valid_year (fix_year ((digitsToNat [y1, y2, y3, y4] : Nat) : Int)) = true := by
    rw [← hdyear]
    exact hvy
  rcases hdlen with hdl | hdl
  · obtain ⟨a, rfl⟩ := List.length_eq_one.mp hdl
    have hda : a.isDigit = true := hdsdig a (by simp)
    rcases hmlen with hml | hml
    · obtain ⟨m, rfl⟩ := List.length_eq_one.mp hml
      have hdm : m.isDigit = true := hmsdig m (by simp)
      simp only [List.cons_append, List.nil_append] at hteq
      obtain ⟨prev, hpb, hk2⟩ :
          ∃ prev, boundaryOk prev = true ∧ searchP2 none s1 =
            searchP2 prev [a, sep, m, sep, y1, y2, y3, y4] := by
        rcases hstate with ⟨hveq, -⟩ | ⟨hveq, -⟩
        · rw [hteq] at hveq
          exact ⟨none, rfl, by rw [hveq]⟩
        · rw [hteq] at hveq
          refine ⟨some '.', by decide, ?_⟩
          rw [hveq]
          exact searchP2_cons_none _ _ _ (tryP2At_nondigit _ _ _ (by decide))
      have hs2 : pdfStep2 s1 =
          some ⟨fix_year ((digitsToNat [y1, y2, y3, y4] : Nat) : Int),
            ((digitsToNat [m] : Nat) : Int), 1⟩ := by
        unfold pdfStep2
        rw [hk2, searchP2_SL1 prev a m sep y1 y2 y3 y4 hpb hda hdm
          hy1 hy2 hy3 hy4 hsd hsp hsw]
        dsimp only
        rw [if_pos]
        rw [Bool.and_eq_true, Bool.and_eq_true]
        exact ⟨⟨decide_eq_true hm1, decide_eq_true hm12⟩, hvyd⟩
      rw [h2] at hs2
      exact Option.noConfusion hs2
    · obtain ⟨m1, m2, rfl⟩ := List.length_eq_two.mp hml
      have hdm1 : m1.isDigit = true := hmsdig m1 (by simp)
      have hdm2 : m2.isDigit = true := hmsdig m2 (by simp)
      simp only [List.cons_append, List.nil_append] at hteq
      obtain ⟨prev, hpb, hk2⟩ :
          ∃ prev, boundaryOk prev = true ∧ searchP2 none s1 =
            searchP2 prev [a, sep, m1, m2, sep, y1, y2, y3, y4] := by
        rcases hstate with ⟨hveq, -⟩ | ⟨hveq, -⟩
        · rw [hteq] at hveq
          exact ⟨none, rfl, by rw [hveq]⟩
        · rw [hteq] at hveq
          refine ⟨some '.', by decide, ?_⟩
          rw [hveq]
          exact searchP2_cons_none _ _ _ (tryP2At_nondigit _ _ _ (by decide))
      have hvym : valid_year (fix_year ((digitsToNat [m1, m2] : Nat) : Int)) = true := by
        rw [fix_year_small _ (by omega) (by omega), valid_year_iff]
        omega
      have hs2 : pdfStep2 s1 =
          some ⟨fix_year ((digitsToNat [m1, m2] : Nat) : Int),
            ((digitsToNat [a] : Nat) : Int), 1⟩ := by
        unfold pdfStep2
        rw [hk2, searchP2_SL2 prev a m1 m2 sep y1 y2 y3 y4 hpb hda hdm1 hdm2
          hsd hsp hsw]
        dsimp only
        rw [if_pos]
        rw [Bool.and_eq_true, Bool.and_eq_true]
        refine ⟨⟨decide_eq_true hd1, decide_eq_true ?_⟩, hvym⟩
        have := digit_single_le a hda
        omega
      rw [h2] at hs2
      exact Option.noConfusion hs2
  · obtain ⟨d1, d2, rfl⟩ := List.length_eq_two.mp hdl
    have hdd1 : d1.isDigit = true := hdsdig d1 (by simp)
    have hdd2 : d2.isDigit = true := hdsdig d2 (by simp)
    rcases hmlen with hml | hml
    · obtain ⟨m, rfl⟩ := List.length_eq_one.mp hml
      have hdm : m.isDigit = true := hmsdig m (by simp)
      simp only [List.cons_append, List.nil_append] at hteq
      obtain ⟨prev, hpb, hk2⟩ :
          ∃ prev, boundaryOk prev = true ∧ searchP2 none s1 =
            searchP2 prev [d1, d2, sep, m, sep, y1, y2, y3, y4] := by
        rcases hstate with ⟨hveq, -⟩ | ⟨hveq, -⟩
        · rw [hteq] at hveq
          exact ⟨none, rfl, by rw [hveq]⟩
        · rw [hteq] at hveq
          refine ⟨some '.', by decide, ?_⟩
          rw [hveq]
          exact searchP2_cons_none _ _ _ (tryP2At_nondigit _ _ _ (by decide))
      have hs2 : pdfStep2 s1 =
          some ⟨fix_year ((digitsToNat [y1, y2, y3, y4] : Nat) : Int),
            ((digitsToNat [m] : Nat) : Int), 1⟩ := by
        unfold pdfStep2
        rw [hk2, searchP2_SL3 prev d1 d2 m sep y1 y2 y3 y4 hpb hdd1 hdd2 hdm
          hy1 hy2 hy3 hy4 hsd hsp hsw]
        dsimp only
        rw [if_pos]
        rw [Bool.and_eq_true, Bool.and_eq_true]
        exact ⟨⟨decide_eq_true hm1, decide_eq_true hm12⟩, hvyd⟩
      rw [h2] at hs2
      exact Option.noConfusion hs2
    · obtain ⟨m1, m2, rfl⟩ := List.length_eq_two.mp hml
      have hdm1 : m1.isDigit = true := hmsdig m1 (by simp)
      have hdm2 : m2.isDigit = true := hmsdig m2 (by simp)
      simp only [List.cons_append, List.nil_append] at hteq
      obtain ⟨prev, hpb, hk2, hk4⟩ :
          ∃ prev, boundaryOk prev = true ∧
            (searchP2 none s1 =
              searchP2 prev [d1, d2, sep, m1, m2, sep, y1, y2, y3, y4]) ∧
            (searchP4 none s1 =
              searchP4 prev [d1, d2, sep, m1, m2, sep, y1, y2, y3, y4]) := by
        rcases hstate with ⟨hveq, -⟩ | ⟨hveq, -⟩
        · rw [hteq] at hveq
          exact ⟨none, rfl, by rw [hveq], by rw [hveq]⟩
        · rw [hteq] at hveq
          refine ⟨some '.', by decide, ?_, ?_⟩
          · rw [hveq]
            exact searchP2_cons_none _ _ _ (tryP2At_nondigit _ _ _ (by decide))
          · rw [hveq]
            exact searchP4_cons_none _ _ _ (tryP4At_nondigit _ _ _ (by decide))
      by_cases hle : ((digitsToNat [d1, d2] : Nat) : Int) ≤ 12
      · have hvym : valid_year (fix_year ((digitsToNat [m1, m2] : Nat) : Int)) = true := by
          rw [fix_year_small _ (by omega) (by omega), valid_year_iff]
          omega
        have hs2 : pdfStep2 s1 =
            some ⟨fix_year ((digitsToNat [m1, m2] : Nat) : Int),
              ((digitsToNat [d1, d2] : Nat) : Int), 1⟩ := by
          unfold pdfStep2
          rw [hk2, searchP2_SL4 prev d1 d2 m1 m2 sep y1 y2 y3 y4 hpb hdd1 hdd2
            hdm1 hdm2 hsd hsp hsw]
          dsimp only
          rw [if_pos]
          rw [Bool.and_eq_true, Bool.and_eq_true]
          exact ⟨⟨decide_eq_true hd1, decide_eq_true hle⟩, hvym⟩
        rw [h2] at hs2
        exact Option.noConfusion hs2
      · have hvyp : valid_year (fix_year ((digitsToNat [d1, d2] : Nat) : Int)) = true := by
          rw [fix_year_small _ (by omega) (by omega), valid_year_iff]
          omega
        have hs4 : pdfStep4 s1 =
            some ⟨fix_year ((digitsToNat [d1, d2] : Nat) : Int), 1, 1⟩ := by
          unfold pdfStep4
          rw [hk4, searchP4_SL5 prev d1 d2 sep _ hpb hdd1 hdd2 hsw]
          dsimp only
          rw [if_pos hvyp]
        rw [h4] at hs4
        exact Option.noConfusion hs4

theorem pdfChain_day (s1 : List Char) (d : PyDate) (hh : headOK s1 = true)
    (hl : lastOK s1 = true) (h : pdfChain s1 = some d) : d.day = 1 := by
  unfold pdfChain at h
  split at h
  · next d0 h1 =>
    obtain rfl := Option.some.inj h
    exact pdfStep1_day _ _ h1
  · next h1 =>
    split at h
    · next d0 hs2 =>
      obtain rfl := Option.some.inj h
      exact pdfStep2_day _ _ hs2
    · next h2 =>
      split at h
      · next d0 hs3 =>
        obtain rfl := Option.some.inj h
        exact pdfStep3_day _ _ hs3
      · next h3 =>
        split at h
        · next d0 hs4 =>
          obtain rfl := Option.some.inj h
          exact pdfStep4_day _ _ hs4
        · next h4 =>
          rcases pdfFallback_cases s1 d h with hday | ⟨sep, hsep, hrun, hvy⟩
          · exact hday
          · exfalso
            rcases hsep with rfl | rfl | rfl
            · exact dmy_sep_impossible s1 d '/' (by decide) (by decide)
                (by decide) (by decide) hh hl h2 h4 hrun hvy
            · exact dmy_sep_impossible s1 d '-' (by decide) (by decide)
                (by decide) (by decide) hh hl h2 h4 hrun hvy
            · exact dmy_dot_impossible s1 d hh hl hrun

/-- Day-of-month invariant of the flexible parser: every successful parse
has day 1. -/
theorem parse_date_flexible_day (s : List Char) (d : PyDate)
    (h : parse_date_flexible s = some d) : d.day = 1 := by
  unfold parse_date_flexible at h
  split at h
  · exact absurd h (by simp)
  · dsimp only at h
    split at h
    · exact absurd h (by simp)
    · exact pdfChain_day _ _ (pyStrip_headOK s) (pyStrip_lastOK s) h

theorem fdcLoop_origin (raws : List (List Char)) :
    ∀ seen d, d ∈ fdcLoop raws seen →
    ∃ r, parse_date_flexible r = some d := by
  induction raws with
  | nil =>
    intro seen d h
    simp [fdcLoop] at h
  | cons r rest ih =>
    intro seen d h
    rw [fdcLoop] at h
    split at h
    · exact ih _ _ h
    · split at h
      · next d0 heq =>
        rcases List.mem_cons.1 h with rfl | h
        · exact ⟨r, heq⟩
        · exact ih _ _ h
      · exact ih _ _ h

/-- Day-of-month invariant of the candidate miner: every mined candidate
has day 1. -/
theorem find_date_candidates_day (text : List Char) (d : PyDate)
    (h : d ∈ find_date_candidates text) : d.day = 1 := by
  unfold find_date_candidates at h
  split at h
  · simp at h
  · have h2 := dedupSortDates_subset _ _ h
    obtain ⟨r, hr⟩ := fdcLoop_origin _ _ _ h2
    exact parse_date_flexible_day _ _ hr

/-- C6: for every input string, `parse_date_flexible` returns either none
or a date whose day-of-month equals 1 (including results produced by the
strptime fallback template list), and every date candidate mined by
`find_date_candidates` from any text has day-of-month 1. -/
theorem C6_day_normalized :
    (∀ (s : List Char) (d : PyDate),
      parse_date_flexible s = some d → d.day = 1) ∧
    (∀ (t : List Char) (d : PyDate),
      d ∈ find_date_candidates t → d.day = 1) :=
  ⟨fun s d h => parse_date_flexible_day s d h,
   fun t d h => find_date_candidates_day t d h⟩

theorem C6_day_normalized_witness :
    parse_date_flexible "JAN.24".data = some ⟨2024, 1, 1⟩ ∧
    (⟨2024, 1, 1⟩ : PyDate).day = 1 :=
  ⟨by decide, C6_day_normalized.1 "JAN.24".data ⟨2024, 1, 1⟩ (by decide)⟩

end MedOCR
